import Mathlib

/-!
Verification of the MPI Wandering-Salesman (TSP) branch-and-bound solver.

The development shallowly embeds the repository's C sources:
* `wsp-mpi.c` (baseline MPI solver) — its scratch lower bound `lower_bound`;
* the "stable enhanced" hybrid variant (first unnamed part): two-edge bounds
  `precompute_enhanced_bounds` / `lower_bound_2edge` / `incremental_lower_bound`,
  the explicit-stack DFS `stable_hybrid_dfs` (modelled in its single-thread
  configuration, i.e. the build without `_OPENMP`, which the spec requires to be
  supported), the owner-computes seeding `stable_distributed_search`, the final
  `MPI_Allreduce(MIN)` reduction and the path-collection loop of `main`, and
  `read_distance_file`.

C `int` values are modelled as `Int` with the explicit constant `INT_MAX`;
bitmask state is a `Nat` inspected with `Nat.testBit` (matching `mask & (1<<i)`).
The distance matrix is a function `Nat → Nat → Int`; all code only reads
entries with both indices < N.
-/

/-- C's INT_MAX, the "infinity" sentinel used by `best_cost`. -/
def INT_MAX : Int := 2147483647

/-- Number of edges' cost along a walk: `walkCost D [a,b,c] = D a b + D b c`.
This is the program's notion of path cost (sum of `D[path[k]][path[k+1]]`). -/
def walkCost (D : Nat → Nat → Int) : List Nat → Int
  | a :: b :: rest => D a b + walkCost D (b :: rest)
  | _ => 0

@[simp] theorem walkCost_nil (D : Nat → Nat → Int) : walkCost D [] = 0 := rfl

@[simp] theorem walkCost_single (D : Nat → Nat → Int) (a : Nat) :
    walkCost D [a] = 0 := rfl

@[simp] theorem walkCost_cons_cons (D : Nat → Nat → Int) (a b : Nat) (l : List Nat) :
    walkCost D (a :: b :: l) = D a b + walkCost D (b :: l) := rfl

/-- The ascending list of unvisited cities of a mask, i.e. the set bits of
`(~mask) & ((1 << N) - 1)` in the order the `__builtin_ctz` bit-scan loops of
the C code produce them (least-significant first). -/
def childrenOf (N : Nat) (mask : Nat) : List Nat :=
  (List.range N).filter (fun i => ¬ mask.testBit i)

theorem mem_childrenOf {N mask i : Nat} :
    i ∈ childrenOf N mask ↔ i < N ∧ ¬ mask.testBit i := by
  simp [childrenOf]

theorem childrenOf_nodup (N mask : Nat) : (childrenOf N mask).Nodup :=
  (List.nodup_range N).filter _

theorem childrenOf_length_le (N mask : Nat) : (childrenOf N mask).length ≤ N := by
  have h := List.length_filter_le (fun i => ¬ mask.testBit i) (List.range N)
  simpa [childrenOf] using h

theorem testBit_or_two_pow (m c i : Nat) :
    (m ||| 2 ^ c).testBit i ↔ (m.testBit i ∨ i = c) := by
  rcases eq_or_ne i c with h | h
  · subst h
    simp [Nat.testBit_or, Nat.testBit_two_pow_self]
  · simp [Nat.testBit_or, Nat.testBit_two_pow_of_ne (Ne.symm h), h]

/-- Marking city `c` removes exactly `c` from the unvisited list. -/
theorem childrenOf_or_two_pow (N mask c : Nat) :
    childrenOf N (mask ||| 2 ^ c) = (childrenOf N mask).filter (fun i => i ≠ c) := by
  unfold childrenOf
  rw [List.filter_filter]
  apply List.filter_congr
  intro i _
  by_cases h : i = c
  · subst h
    simp [testBit_or_two_pow]
  · simp [testBit_or_two_pow, h, Nat.testBit_two_pow_of_ne (Ne.symm h)]

namespace WspMpi

/-- The inner loop of `lower_bound` in `wsp-mpi.c`: starting from `INT_MAX`,
scan `j = 0..N-1` and keep the smallest `dist[i][j]` with `i != j`. -/
def minOutEdge (N : Nat) (D : Nat → Nat → Int) (i : Nat) : Int :=
  (List.range N).foldl
    (fun best j => if i ≠ j ∧ D i j < best then D i j else best) INT_MAX

/-- `lower_bound(cost, mask)` of `wsp-mpi.c`: for every unvisited city add its
cheapest outgoing edge. -/
def lower_bound (N : Nat) (D : Nat → Nat → Int) (cost : Int) (mask : Nat) : Int :=
  (List.range N).foldl
    (fun lb i => if mask.testBit i then lb else lb + minOutEdge N D i) cost

end WspMpi

namespace Stable

/-- One `j` step of the `precompute_enhanced_bounds` loop, threading the pair
`(min1, min2)` of smallest and second smallest `dist[i][j]`, `j ≠ i`. -/
def boundsStep (D : Nat → Nat → Int) (i : Nat) (p : Int × Int) (j : Nat) : Int × Int :=
  if i = j then p
  else if D i j < p.1 then (D i j, p.1)
  else if D i j < p.2 then (p.1, D i j)
  else p

/-- The `(min1, min2)` pair computed by `precompute_enhanced_bounds` for city
`i`, before the `INT_MAX → 0` sentinel replacement. -/
def minPair (N : Nat) (D : Nat → Nat → Int) (i : Nat) : Int × Int :=
  (List.range N).foldl (boundsStep D i) (INT_MAX, INT_MAX)

/-- `bounds.cheapest1[i]`: smallest off-diagonal entry of row `i`
(0 when no such entry exists). -/
def cheapest1 (N : Nat) (D : Nat → Nat → Int) (i : Nat) : Int :=
  if (minPair N D i).1 = INT_MAX then 0 else (minPair N D i).1

/-- `bounds.cheapest2[i]`: second smallest off-diagonal entry of row `i`
(0 when fewer than two off-diagonal entries exist). -/
def cheapest2 (N : Nat) (D : Nat → Nat → Int) (i : Nat) : Int :=
  if (minPair N D i).2 = INT_MAX then 0 else (minPair N D i).2

/-- The averaged two-edge term `(cheapest1[i] + cheapest2[i]) / 2`
contributed by an unvisited city `i` (C integer division). -/
def avg2 (N : Nat) (D : Nat → Nat → Int) (i : Nat) : Int :=
  (cheapest1 N D i + cheapest2 N D i) / 2

/-- `lower_bound_2edge(cost, mask)`: the bit-scan loop over the unvisited
cities of `(~mask) & ((1<<N)-1)` accumulating the averaged two-edge terms. -/
def lower_bound_2edge (N : Nat) (D : Nat → Nat → Int) (cost : Int) (mask : Nat) : Int :=
  (childrenOf N mask).foldl (fun lb i => lb + avg2 N D i) cost

/-- `incremental_lower_bound(parent_lb, prev_city, cur_city)`. -/
def incremental_lower_bound (N : Nat) (D : Nat → Nat → Int)
    (parent_lb : Int) (prev_city cur_city : Nat) : Int :=
  parent_lb + D prev_city cur_city - avg2 N D cur_city

end Stable

/-- Accumulating fold of additions, in closed form. -/
theorem foldl_add_map_sum (f : Nat → Int) (c : Int) (l : List Nat) :
    l.foldl (fun acc i => acc + f i) c = c + (l.map f).sum := by
  induction l generalizing c with
  | nil => simp
  | cons a t ih => simp [ih, add_assoc]

/-- Skipping fold of additions, in closed form: only unskipped terms add up. -/
theorem foldl_add_filter_sum (p : Nat → Bool) (f : Nat → Int) (c : Int) (l : List Nat) :
    l.foldl (fun acc i => if p i then acc else acc + f i) c
      = c + ((l.filter (fun i => ¬ p i)).map f).sum := by
  induction l generalizing c with
  | nil => simp
  | cons a t ih =>
    by_cases h : p a
    · simp [h, ih]
    · simp [h, ih, add_assoc]

namespace Stable

theorem lower_bound_2edge_eq (N : Nat) (D : Nat → Nat → Int) (c : Int) (m : Nat) :
    lower_bound_2edge N D c m = c + ((childrenOf N m).map (avg2 N D)).sum :=
  foldl_add_map_sum _ _ _

/-- Splitting off one unvisited city from the two-edge bound's sum. -/
theorem lower_bound_2edge_split (N : Nat) (D : Nat → Nat → Int) (c : Int) (m : Nat)
    (cur : Nat) (hcur : cur < N) (hbit : ¬ m.testBit cur) :
    lower_bound_2edge N D c m
      = avg2 N D cur + lower_bound_2edge N D c (m ||| 2 ^ cur) := by
  have hmem : cur ∈ childrenOf N m := mem_childrenOf.mpr ⟨hcur, hbit⟩
  have hperm : List.Perm (childrenOf N m) (cur :: (childrenOf N m).erase cur) :=
    List.perm_cons_erase hmem
  have herase : (childrenOf N m).erase cur = (childrenOf N m).filter (fun i => i ≠ cur) := by
    rw [(childrenOf_nodup N m).erase_eq_filter cur]
    apply List.filter_congr
    intro i _
    simp [bne, beq_eq_decide]
  rw [lower_bound_2edge_eq, lower_bound_2edge_eq, childrenOf_or_two_pow]
  have hsum : ((childrenOf N m).map (avg2 N D)).sum
      = ((cur :: (childrenOf N m).erase cur).map (avg2 N D)).sum :=
    (hperm.map (avg2 N D)).sum_eq
  rw [hsum, herase]
  simp [List.map_cons]
  ring

end Stable

/-- The O(1) incremental bound update agrees with the scratch two-edge bound
of the child node (helper form). -/
theorem Stable.incr_lb_eq_scratch (N : Nat) (D : Nat → Nat → Int)
    (c : Int) (m : Nat) (prev cur : Nat) (hcur : cur < N) (hbit : ¬ m.testBit cur) :
    Stable.incremental_lower_bound N D (Stable.lower_bound_2edge N D c m) prev cur
      = Stable.lower_bound_2edge N D (c + D prev cur) (m ||| 2 ^ cur) := by
  rw [Stable.lower_bound_2edge_split N D c m cur hcur hbit]
  rw [Stable.incremental_lower_bound]
  rw [Stable.lower_bound_2edge_eq, Stable.lower_bound_2edge_eq]
  ring

/-- Claim C3: the O(1) incremental scheme-B update coincides with the
from-scratch two-edge bound of the child node: for every mask `m`, cost `c`
and cities `prev`, `cur` with `cur < N` unvisited in `m`,
`incremental_lower_bound (lower_bound_2edge c m) prev cur
  = lower_bound_2edge (c + D[prev][cur]) (m | (1<<cur))`. -/
theorem C3_incremental_eq_scratch (N : Nat) (D : Nat → Nat → Int)
    (c : Int) (m : Nat) (prev cur : Nat) (hcur : cur < N) (hbit : ¬ m.testBit cur) :
    Stable.incremental_lower_bound N D (Stable.lower_bound_2edge N D c m) prev cur
      = Stable.lower_bound_2edge N D (c + D prev cur) (m ||| 2 ^ cur) :=
  Stable.incr_lb_eq_scratch N D c m prev cur hcur hbit

/-- Witness for C3 at a concrete instance (`N = 3`, triangular scenario-1
matrix, mask `{0}`, extending `0 → 2`). -/
theorem C3_incremental_eq_scratch_witness :
    Stable.incremental_lower_bound 3 (fun i j => [[0,1,2],[1,0,3],[2,3,0]].getD i [] |>.getD j 0)
        (Stable.lower_bound_2edge 3 (fun i j => [[0,1,2],[1,0,3],[2,3,0]].getD i [] |>.getD j 0) 0 1) 0 2
      = Stable.lower_bound_2edge 3 (fun i j => [[0,1,2],[1,0,3],[2,3,0]].getD i [] |>.getD j 0)
        (0 + (fun i j => [[0,1,2],[1,0,3],[2,3,0]].getD i [] |>.getD j 0) 0 2) (1 ||| 2 ^ 2) :=
  C3_incremental_eq_scratch 3 _ 0 1 0 2 (by decide) (by decide)


namespace Stable

/-- Case analysis of one `precompute_enhanced_bounds` scan step. -/
theorem boundsStep_cases (D : Nat → Nat → Int) (i a : Nat) (p : Int × Int) :
    (i = a ∧ boundsStep D i p a = p) ∨
    (i ≠ a ∧ D i a < p.1 ∧ boundsStep D i p a = (D i a, p.1)) ∨
    (i ≠ a ∧ ¬ D i a < p.1 ∧ D i a < p.2 ∧ boundsStep D i p a = (p.1, D i a)) ∨
    (i ≠ a ∧ ¬ D i a < p.1 ∧ ¬ D i a < p.2 ∧ boundsStep D i p a = p) := by
  unfold boundsStep
  split_ifs with h1 h2 h3 <;> tauto

/-- The invariant carried through the `precompute_enhanced_bounds` scan:
`min1 ≤ min2`, `min2` never exceeds `INT_MAX`, `min1` is below every scanned
off-diagonal entry, and `min2` is below one side of every pair of distinct
scanned off-diagonal entries. -/
def BInv (D : Nat → Nat → Int) (i : Nat) (seen : Nat → Prop) (p : Int × Int) : Prop :=
  p.1 ≤ p.2 ∧ p.2 ≤ INT_MAX ∧
  (∀ j, seen j → j ≠ i → p.1 ≤ D i j) ∧
  (∀ j1 j2, seen j1 → seen j2 → j1 ≠ j2 → j1 ≠ i → j2 ≠ i →
      p.2 ≤ D i j1 ∨ p.2 ≤ D i j2)

theorem boundsStep_preserves (D : Nat → Nat → Int) (i a : Nat)
    (seen : Nat → Prop) (p : Int × Int) (h : BInv D i seen p) :
    BInv D i (fun x => seen x ∨ x = a) (boundsStep D i p a) := by
  obtain ⟨hC, hE, hA, hB⟩ := h
  have hAx : ∀ j1 j2, seen j1 → seen j2 → j1 ≠ j2 → j1 ≠ i → j2 ≠ i →
      boundsStep D i p a = p → p.2 ≤ D i j1 ∨ p.2 ≤ D i j2 :=
    fun j1 j2 h1 h2 hne h1i h2i _ => hB j1 j2 h1 h2 hne h1i h2i
  rcases boundsStep_cases D i a p with ⟨hia, heq⟩ | ⟨hia, hlt, heq⟩ |
      ⟨hia, hge, hlt, heq⟩ | ⟨hia, hge1, hge2, heq⟩ <;> rw [heq]
  · -- i = a: the diagonal column is skipped
    refine ⟨hC, hE, ?_, ?_⟩
    · intro j hj hji
      rcases hj with hj | hj
      · exact hA j hj hji
      · exact absurd (hj ▸ hia.symm) hji
    · intro j1 j2 h1 h2 hne h1i h2i
      rcases h1 with h1 | h1
      · rcases h2 with h2 | h2
        · exact hB j1 j2 h1 h2 hne h1i h2i
        · exact absurd (h2 ▸ hia.symm) h2i
      · exact absurd (h1 ▸ hia.symm) h1i
  · -- new strict minimum: (min1, min2) := (D i a, min1)
    refine ⟨le_of_lt hlt, le_trans hC hE, ?_, ?_⟩
    · intro j hj hji
      rcases hj with hj | hj
      · exact le_of_lt (lt_of_lt_of_le hlt (hA j hj hji))
      · subst hj
        exact le_rfl
    · intro j1 j2 h1 h2 hne h1i h2i
      rcases h1 with h1 | h1
      · rcases h2 with h2 | h2
        · exact Or.inl (hA j1 h1 h1i)
        · exact Or.inl (hA j1 h1 h1i)
      · subst h1
        rcases h2 with h2 | h2
        · exact Or.inr (hA j2 h2 h2i)
        · exact absurd h2.symm hne
  · -- new second minimum: (min1, min2) := (min1, D i a)
    refine ⟨not_lt.mp hge, le_trans (le_of_lt hlt) hE, ?_, ?_⟩
    · intro j hj hji
      rcases hj with hj | hj
      · exact hA j hj hji
      · subst hj
        exact not_lt.mp hge
    · intro j1 j2 h1 h2 hne h1i h2i
      rcases h1 with h1 | h1
      · rcases h2 with h2 | h2
        · rcases hB j1 j2 h1 h2 hne h1i h2i with h | h
          · exact Or.inl (le_trans (le_of_lt hlt) h)
          · exact Or.inr (le_trans (le_of_lt hlt) h)
        · subst h2
          exact Or.inr le_rfl
      · subst h1
        exact Or.inl le_rfl
  · -- column no smaller than min2: state unchanged
    refine ⟨hC, hE, ?_, ?_⟩
    · intro j hj hji
      rcases hj with hj | hj
      · exact hA j hj hji
      · subst hj
        exact le_trans hC (not_lt.mp hge2)
    · intro j1 j2 h1 h2 hne h1i h2i
      rcases h1 with h1 | h1
      · rcases h2 with h2 | h2
        · exact hB j1 j2 h1 h2 hne h1i h2i
        · subst h2
          exact Or.inr (not_lt.mp hge2)
      · subst h1
        exact Or.inl (not_lt.mp hge2)

theorem boundsStep_fold_inv (D : Nat → Nat → Int) (i : Nat) (l : List Nat)
    (seen : Nat → Prop) (p : Int × Int) (h : BInv D i seen p) :
    BInv D i (fun x => seen x ∨ x ∈ l) (l.foldl (boundsStep D i) p) := by
  induction l generalizing seen p with
  | nil =>
    obtain ⟨hC, hE, hA, hB⟩ := h
    refine ⟨hC, hE, ?_, ?_⟩
    · intro j hj hji
      rcases hj with hj | hj
      · exact hA j hj hji
      · simp at hj
    · intro j1 j2 h1 h2 hne h1i h2i
      rcases h1 with h1 | h1
      · rcases h2 with h2 | h2
        · exact hB j1 j2 h1 h2 hne h1i h2i
        · simp at h2
      · simp at h1
  | cons a t ih =>
    simp only [List.foldl_cons]
    have key := ih (fun x => seen x ∨ x = a) (boundsStep D i p a)
      (boundsStep_preserves D i a seen p h)
    obtain ⟨hC, hE, hA, hB⟩ := key
    refine ⟨hC, hE, ?_, ?_⟩
    · intro j hj hji
      refine hA j ?_ hji
      rcases hj with hj | hj
      · exact Or.inl (Or.inl hj)
      · rcases List.mem_cons.mp hj with hj | hj
        · exact Or.inl (Or.inr hj)
        · exact Or.inr hj
    · intro j1 j2 h1 h2 hne h1i h2i
      refine hB j1 j2 ?_ ?_ hne h1i h2i
      · rcases h1 with h1 | h1
        · exact Or.inl (Or.inl h1)
        · rcases List.mem_cons.mp h1 with h1 | h1
          · exact Or.inl (Or.inr h1)
          · exact Or.inr h1
      · rcases h2 with h2 | h2
        · exact Or.inl (Or.inl h2)
        · rcases List.mem_cons.mp h2 with h2 | h2
          · exact Or.inl (Or.inr h2)
          · exact Or.inr h2

/-- The complete invariant at `minPair`. -/
theorem minPair_inv (N : Nat) (D : Nat → Nat → Int) (i : Nat) :
    BInv D i (fun x => x ∈ List.range N) (minPair N D i) := by
  have h0 : BInv D i (fun _ => False) ((INT_MAX : Int), (INT_MAX : Int)) := by
    refine ⟨le_rfl, le_rfl, ?_, ?_⟩
    · intro j hj
      exact absurd hj not_false
    · intro j1 j2 h1
      exact absurd h1 not_false
  have h := boundsStep_fold_inv D i (List.range N) (fun _ => False) (INT_MAX, INT_MAX) h0
  unfold minPair
  obtain ⟨hC, hE, hA, hB⟩ := h
  refine ⟨hC, hE, ?_, ?_⟩
  · intro j hj hji
    exact hA j (Or.inr hj) hji
  · intro j1 j2 h1 h2 hne h1i h2i
    exact hB j1 j2 (Or.inr h1) (Or.inr h2) hne h1i h2i

/-- Fold lower bound: both running minima stay above any common lower bound
of the seed and the scanned entries. -/
theorem boundsStep_fold_lb (D : Nat → Nat → Int) (i : Nat) (l : List Nat)
    (p : Int × Int) (L : Int) (h1 : L ≤ p.1) (h2 : L ≤ p.2)
    (hD : ∀ j ∈ l, L ≤ D i j) :
    L ≤ (l.foldl (boundsStep D i) p).1 ∧ L ≤ (l.foldl (boundsStep D i) p).2 := by
  induction l generalizing p with
  | nil => exact ⟨h1, h2⟩
  | cons a t ih =>
    simp only [List.foldl_cons]
    have hDa : L ≤ D i a := hD a (List.mem_cons_self a t)
    refine ih (boundsStep D i p a) ?_ ?_ (fun j hj => hD j (List.mem_cons_of_mem a hj))
    · rcases boundsStep_cases D i a p with ⟨_, heq⟩ | ⟨_, _, heq⟩ |
          ⟨_, _, _, heq⟩ | ⟨_, _, _, heq⟩ <;> rw [heq]
      · exact h1
      · exact hDa
      · exact h1
      · exact h1
    · rcases boundsStep_cases D i a p with ⟨_, heq⟩ | ⟨_, _, heq⟩ |
          ⟨_, _, _, heq⟩ | ⟨_, _, _, heq⟩ <;> rw [heq]
      · exact h2
      · exact h1
      · exact hDa
      · exact h2

theorem cheapest1_nonneg (N : Nat) (D : Nat → Nat → Int) (i : Nat)
    (hnn : ∀ j, j < N → 0 ≤ D i j) : 0 ≤ cheapest1 N D i := by
  unfold cheapest1
  split_ifs with h
  · exact le_rfl
  · have := boundsStep_fold_lb D i (List.range N) (INT_MAX, INT_MAX) 0
      (by norm_num [INT_MAX]) (by norm_num [INT_MAX])
      (fun j hj => hnn j (List.mem_range.mp hj))
    exact this.1

theorem cheapest2_nonneg (N : Nat) (D : Nat → Nat → Int) (i : Nat)
    (hnn : ∀ j, j < N → 0 ≤ D i j) : 0 ≤ cheapest2 N D i := by
  unfold cheapest2
  split_ifs with h
  · exact le_rfl
  · have := boundsStep_fold_lb D i (List.range N) (INT_MAX, INT_MAX) 0
      (by norm_num [INT_MAX]) (by norm_num [INT_MAX])
      (fun j hj => hnn j (List.mem_range.mp hj))
    exact this.2

/-- `cheapest1[i]` is below every off-diagonal entry of row `i`. -/
theorem cheapest1_le (N : Nat) (D : Nat → Nat → Int) (i j : Nat)
    (hnn : ∀ k, k < N → 0 ≤ D i k) (hj : j < N) (hji : j ≠ i) :
    cheapest1 N D i ≤ D i j := by
  unfold cheapest1
  split_ifs with h
  · exact hnn j hj
  · exact (minPair_inv N D i).2.2.1 j (List.mem_range.mpr hj) hji

/-- The two cheapest-edge values together are below the sum of any two
distinct off-diagonal entries of row `i`. -/
theorem cheapest_pair_le (N : Nat) (D : Nat → Nat → Int) (i j1 j2 : Nat)
    (hnn : ∀ k, k < N → 0 ≤ D i k)
    (h1 : j1 < N) (h2 : j2 < N) (hne : j1 ≠ j2) (h1i : j1 ≠ i) (h2i : j2 ≠ i) :
    cheapest1 N D i + cheapest2 N D i ≤ D i j1 + D i j2 := by
  obtain ⟨hC, hE, hA, hB⟩ := minPair_inv N D i
  by_cases hs : (minPair N D i).2 = INT_MAX
  · have hc2 : cheapest2 N D i = 0 := by simp [cheapest2, hs]
    have hc1 : cheapest1 N D i ≤ D i j1 := cheapest1_le N D i j1 hnn h1 h1i
    have := hnn j2 h2
    linarith
  · have hq2 : (minPair N D i).1 ≠ INT_MAX := by
      intro h
      have : (INT_MAX : Int) ≤ (minPair N D i).2 := h ▸ hC
      exact hs (le_antisymm hE this)
    have hc1 : cheapest1 N D i = (minPair N D i).1 := by simp [cheapest1, hq2]
    have hc2 : cheapest2 N D i = (minPair N D i).2 := by simp [cheapest2, hs]
    rcases hB j1 j2 (List.mem_range.mpr h1) (List.mem_range.mpr h2) hne h1i h2i with h | h
    · have := hA j2 (List.mem_range.mpr h2) h2i
      rw [hc1, hc2]
      linarith
    · have := hA j1 (List.mem_range.mpr h1) h1i
      rw [hc1, hc2]
      linarith

theorem two_mul_ediv_two_le (x : Int) : 2 * (x / 2) ≤ x := by
  have h := Int.ediv_add_emod x 2
  have h2 : 0 ≤ x % 2 := Int.emod_nonneg x (by norm_num)
  linarith

theorem avg2_nonneg (N : Nat) (D : Nat → Nat → Int) (i : Nat)
    (hnn : ∀ j, j < N → 0 ≤ D i j) : 0 ≤ avg2 N D i :=
  Int.ediv_nonneg (by linarith [cheapest1_nonneg N D i hnn, cheapest2_nonneg N D i hnn])
    (by norm_num)

end Stable

namespace WspMpi

theorem minfold_le_init (D : Nat → Nat → Int) (i : Nat) (l : List Nat) (b : Int) :
    l.foldl (fun best j => if i ≠ j ∧ D i j < best then D i j else best) b ≤ b := by
  induction l generalizing b with
  | nil => exact le_rfl
  | cons a t ih =>
    simp only [List.foldl_cons]
    split_ifs with h
    · exact le_trans (ih (D i a)) (le_of_lt h.2)
    · exact ih b

theorem minfold_le_mem (D : Nat → Nat → Int) (i : Nat) (l : List Nat) (b : Int)
    (j : Nat) (hj : j ∈ l) (hij : i ≠ j) :
    l.foldl (fun best j => if i ≠ j ∧ D i j < best then D i j else best) b ≤ D i j := by
  induction l generalizing b with
  | nil => simp at hj
  | cons a t ih =>
    simp only [List.foldl_cons]
    rcases List.mem_cons.mp hj with hj | hj
    · subst hj
      split_ifs with h
      · exact minfold_le_init D i t (D i j)
      · push_neg at h
        exact le_trans (minfold_le_init D i t b) (h hij)
    · exact ih _ hj

/-- `minOutEdge` is below every off-diagonal entry of row `i`. -/
theorem minOutEdge_le (N : Nat) (D : Nat → Nat → Int) (i j : Nat)
    (hj : j < N) (hij : i ≠ j) : minOutEdge N D i ≤ D i j :=
  minfold_le_mem D i (List.range N) INT_MAX j (List.mem_range.mpr hj) hij

theorem lower_bound_eq (N : Nat) (D : Nat → Nat → Int) (c : Int) (m : Nat) :
    lower_bound N D c m = c + ((childrenOf N m).map (minOutEdge N D)).sum := by
  unfold lower_bound childrenOf
  rw [foldl_add_filter_sum]

end WspMpi

/-- Walks over in-range cities have non-negative cost. -/
theorem walkCost_nonneg (N : Nat) (D : Nat → Nat → Int)
    (hnn : ∀ i j, i < N → j < N → 0 ≤ D i j) :
    ∀ l : List Nat, (∀ x ∈ l, x < N) → 0 ≤ walkCost D l := by
  intro l
  induction l with
  | nil => intro _; simp
  | cons a t ih =>
    intro hl
    cases t with
    | nil => simp
    | cons b t' =>
      have h1 : 0 ≤ D a b :=
        hnn a b (hl a (List.mem_cons_self a _))
          (hl b (List.mem_cons_of_mem a (List.mem_cons_self b t')))
      have h2 := ih (fun x hx => hl x (List.mem_cons_of_mem a hx))
      simp only [walkCost_cons_cons]
      linarith

/-- A per-city value that is below every admissible outgoing edge is, in sum,
below the cost of the walk that leaves each listed city exactly once. -/
theorem sum_le_walkCost (D : Nat → Nat → Int) (f : Nat → Int) (z : Nat) :
    ∀ l : List Nat, l.Nodup → z ∉ l →
    (∀ x ∈ l, ∀ y, (y ∈ l ∨ y = z) → y ≠ x → f x ≤ D x y) →
    (l.map f).sum ≤ walkCost D (l ++ [z]) := by
  intro l
  induction l with
  | nil => intro _ _ _; simp
  | cons x t ih =>
    intro hnd hz hf
    have hxt : x ∉ t := (List.nodup_cons.mp hnd).1
    have hndt : t.Nodup := (List.nodup_cons.mp hnd).2
    have hzt : z ∉ t := fun h => hz (List.mem_cons_of_mem x h)
    have hft : ∀ a ∈ t, ∀ y, (y ∈ t ∨ y = z) → y ≠ a → f a ≤ D a y := by
      intro a ha y hy hya
      refine hf a (List.mem_cons_of_mem x ha) y ?_ hya
      rcases hy with hy | hy
      · exact Or.inl (List.mem_cons_of_mem x hy)
      · exact Or.inr hy
    have iht := ih hndt hzt hft
    cases t with
    | nil =>
      have hzx : z ≠ x := fun h => hz (h ▸ List.mem_cons_self x [])
      have := hf x (List.mem_cons_self x []) z (Or.inr rfl) hzx
      simpa using this
    | cons y t' =>
      have hyx : y ≠ x := by
        intro h
        exact hxt (h ▸ List.mem_cons_self y t')
      have hkey : f x ≤ D x y :=
        hf x (List.mem_cons_self x _) y
          (Or.inl (List.mem_cons_of_mem x (List.mem_cons_self y t'))) hyx
      simp only [List.map_cons, List.sum_cons, List.cons_append, walkCost_cons_cons] at iht ⊢
      linarith

namespace Stable

/-- Summed `cheapest1 + cheapest2` terms of the cities still to visit are
below the combined cost of the completing walk counted once from the current
city `s` and once without it (each completion edge at most twice, the entry
edge once). -/
theorem sum_pair_le_two_walks (N : Nat) (D : Nat → Nat → Int)
    (hnn : ∀ i j, i < N → j < N → 0 ≤ D i j)
    (hsym : ∀ i j, i < N → j < N → D i j = D j i) (hN0 : 0 < N) :
    ∀ (l : List Nat) (s : Nat), s < N → (∀ x ∈ l, x < N) → (0 : Nat) ∉ l →
    l.Nodup → s ∉ l → (s = 0 → l.length ≠ 1) →
    (l.map (fun i => cheapest1 N D i + cheapest2 N D i)).sum
      ≤ walkCost D (s :: (l ++ [0])) + walkCost D (l ++ [0]) := by
  intro l
  induction l with
  | nil =>
    intro s hs _ _ _ _ _
    simpa using hnn s 0 hs hN0
  | cons x t ih =>
    intro s hs hl h0 hnd hsl hspec
    have hx : x < N := hl x (List.mem_cons_self x t)
    have hx0 : x ≠ 0 := fun h => h0 (h ▸ List.mem_cons_self x t)
    have hsx : s ≠ x := fun h => hsl (h ▸ List.mem_cons_self x t)
    have hxt : x ∉ t := (List.nodup_cons.mp hnd).1
    have hrow : ∀ k, k < N → 0 ≤ D x k := fun k hk => hnn x k hx hk
    have iht := ih x hx (fun a ha => hl a (List.mem_cons_of_mem x ha))
      (fun h => h0 (List.mem_cons_of_mem x h)) (List.nodup_cons.mp hnd).2 hxt
      (fun h => absurd h hx0)
    cases t with
    | nil =>
      by_cases hs0 : s = 0
      · exact absurd (by simp) (hspec hs0)
      · have key : cheapest1 N D x + cheapest2 N D x ≤ D x s + D x 0 :=
          cheapest_pair_le N D x s 0 hrow hs hN0 hs0 hsx (Ne.symm hx0)
        have hsx' : D x s = D s x := hsym x s hx hs
        have h0x : 0 ≤ D x 0 := hnn x 0 hx hN0
        simp only [List.map_cons, List.map_nil, List.sum_cons, List.sum_nil,
          List.cons_append, List.nil_append, walkCost_cons_cons, walkCost_single] at iht ⊢
        linarith
    | cons y t' =>
      have hy : y < N := hl y (List.mem_cons_of_mem x (List.mem_cons_self y t'))
      have hyx : y ≠ x := fun h =>
        hxt (h ▸ List.mem_cons_self y t')
      have hsy : s ≠ y := fun h =>
        hsl (by rw [h]; exact List.mem_cons_of_mem x (List.mem_cons_self y t'))
      have key : cheapest1 N D x + cheapest2 N D x ≤ D x s + D x y :=
        cheapest_pair_le N D x s y hrow hs hy hsy hsx hyx
      have hsx' : D x s = D s x := hsym x s hx hs
      simp only [List.map_cons, List.sum_cons, List.cons_append,
        walkCost_cons_cons] at iht ⊢
      linarith

/-- With two cities the second-cheapest table entry of city 1 is the sentinel
value 0 (only one off-diagonal column exists). -/
theorem cheapest2_two (D : Nat → Nat → Int) (hlt : D 1 0 < INT_MAX) :
    cheapest2 2 D 1 = 0 := by
  have hr : List.range 2 = [0, 1] := rfl
  have hstep0 : boundsStep D 1 (INT_MAX, INT_MAX) 0 = (D 1 0, INT_MAX) := by
    unfold boundsStep
    simp [hlt]
  have hstep1 : boundsStep D 1 (D 1 0, INT_MAX) 1 = (D 1 0, INT_MAX) := by
    unfold boundsStep
    simp
  have hmp : minPair 2 D 1 = (D 1 0, INT_MAX) := by
    unfold minPair
    rw [hr]
    simp only [List.foldl_cons, List.foldl_nil, hstep0, hstep1]
  simp [cheapest2, hmp]

end Stable

/-- A partial tour prefix: starts at city 0, visits pairwise-distinct cities,
all below `N`. -/
def IsPartialTour (N : Nat) (p : List Nat) : Prop :=
  p.head? = some 0 ∧ p.Nodup ∧ ∀ x ∈ p, x < N

/-- `l` lists exactly the cities missing from the prefix `p`, each once. -/
def IsCompletion (N : Nat) (p l : List Nat) : Prop :=
  l.Nodup ∧ (∀ x ∈ l, x < N ∧ x ∉ p) ∧ (∀ i, i < N → i ∉ p → i ∈ l)

/-- The visited bitmask of a path, `Σ (1 << path[k])` as the C code builds it. -/
def maskOfPath (p : List Nat) : Nat := p.foldl (fun m i => m ||| 2 ^ i) 0

theorem testBit_foldl_or (p : List Nat) (m : Nat) (i : Nat) :
    (p.foldl (fun m x => m ||| 2 ^ x) m).testBit i ↔ (m.testBit i ∨ i ∈ p) := by
  induction p generalizing m with
  | nil => simp
  | cons a t ih =>
    simp only [List.foldl_cons, ih, testBit_or_two_pow, List.mem_cons]
    tauto

theorem testBit_maskOfPath (p : List Nat) (i : Nat) :
    (maskOfPath p).testBit i ↔ i ∈ p := by
  simp [maskOfPath, testBit_foldl_or]

theorem sum_map_two_mul (f : Nat → Int) (l : List Nat) :
    (l.map (fun i => 2 * f i)).sum = 2 * (l.map f).sum := by
  induction l with
  | nil => simp
  | cons a t ih =>
    simp only [List.map_cons, List.sum_cons, ih]
    ring

theorem walkCost_cons_le (N : Nat) (D : Nat → Nat → Int)
    (hnn : ∀ i j, i < N → j < N → 0 ≤ D i j) (s : Nat) (hsN : s < N)
    (w : List Nat) (hw : ∀ x ∈ w, x < N) :
    walkCost D w ≤ walkCost D (s :: w) := by
  cases w with
  | nil => simp
  | cons a t =>
    have := hnn s a hsN (hw a (List.mem_cons_self a t))
    simp only [walkCost_cons_cons]
    linarith

/-- Scheme-B admissibility in mask form: if `l` lists exactly the unvisited
cities of `mask`, city 0 and the current city `s` are visited, and the
degenerate single-city-from-0 shape is excluded, then the two-edge bound is
below the cost of the completion `s → l → 0`. -/
theorem Stable.lower_bound_2edge_le_ext (N : Nat) (D : Nat → Nat → Int)
    (hnn : ∀ i j, i < N → j < N → 0 ≤ D i j)
    (hsym : ∀ i j, i < N → j < N → D i j = D j i)
    (c : Int) (mask : Nat) (s : Nat) (l : List Nat)
    (hN0 : 0 < N) (hsN : s < N) (hlnd : l.Nodup)
    (hmem : ∀ i, i ∈ l ↔ (i < N ∧ ¬ mask.testBit i))
    (h0 : mask.testBit 0) (hsm : mask.testBit s)
    (hspec : s = 0 → l.length ≠ 1) :
    Stable.lower_bound_2edge N D c mask ≤ c + walkCost D (s :: (l ++ [0])) := by
  have h0l : (0 : Nat) ∉ l := fun h => ((hmem 0).mp h).2 h0
  have hsl : s ∉ l := fun h => ((hmem s).mp h).2 hsm
  have hlN : ∀ x ∈ l, x < N := fun x hx => ((hmem x).mp hx).1
  have hlz : ∀ x ∈ l ++ [0], x < N := by
    intro x hx
    rcases List.mem_append.mp hx with hx | hx
    · exact hlN x hx
    · have hx0 : x = 0 := by simpa using hx
      rw [hx0]
      exact hN0
  have hperm : List.Perm (childrenOf N mask) l := by
    rw [List.perm_ext_iff_of_nodup (childrenOf_nodup _ _) hlnd]
    intro a
    rw [mem_childrenOf, hmem a]
  rw [Stable.lower_bound_2edge_eq, ((hperm.map (Stable.avg2 N D)).sum_eq : _)]
  have hB := Stable.sum_pair_le_two_walks N D hnn hsym hN0 l s hsN hlN h0l hlnd hsl hspec
  have h2sum : (l.map (fun i => 2 * Stable.avg2 N D i)).sum
      ≤ (l.map (fun i => Stable.cheapest1 N D i + Stable.cheapest2 N D i)).sum := by
    apply List.sum_le_sum
    intro i hi
    exact Stable.two_mul_ediv_two_le _
  have hmul : (l.map (fun i => 2 * Stable.avg2 N D i)).sum
      = 2 * (l.map (Stable.avg2 N D)).sum := sum_map_two_mul _ l
  have hmono := walkCost_cons_le N D hnn s hsN (l ++ [0]) hlz
  linarith

/-- Claim C2: both pruning bounds are admissible.  For every partial tour `p`
(rooted at city 0, mask bit 0 set), every cost `c ≥ 0` and every completion
`l` of the unvisited cities followed by the return to city 0, the scheme-A
scratch bound `lower_bound` of `wsp-mpi.c` and the scheme-B two-edge bound
`lower_bound_2edge` of the stable variant are each at most `c` plus the total
cost of the completion's edges. -/
theorem C2_lower_bounds_admissible (N : Nat) (D : Nat → Nat → Int)
    (hnn : ∀ i, i < N → ∀ j, j < N → 0 ≤ D i j)
    (hsym : ∀ i, i < N → ∀ j, j < N → D i j = D j i)
    (hlt : ∀ i, i < N → ∀ j, j < N → D i j < INT_MAX)
    (c : Int) (hc : 0 ≤ c) (p l : List Nat) (s : Nat)
    (hp : IsPartialTour N p) (hl : IsCompletion N p l) (hs : p.getLast? = some s) :
    WspMpi.lower_bound N D c (maskOfPath p) ≤ c + walkCost D (s :: (l ++ [0])) ∧
    Stable.lower_bound_2edge N D c (maskOfPath p) ≤ c + walkCost D (s :: (l ++ [0])) := by
  have hnn' : ∀ i j, i < N → j < N → 0 ≤ D i j := fun i j hi hj => hnn i hi j hj
  have hsym' : ∀ i j, i < N → j < N → D i j = D j i := fun i j hi hj => hsym i hi j hj
  obtain ⟨hph, hpnd, hplt⟩ := hp
  obtain ⟨hlnd, hlx, hlc⟩ := hl
  obtain ⟨p0, q, rfl⟩ : ∃ a q, p = a :: q := by
    cases p with
    | nil => simp at hph
    | cons a q => exact ⟨a, q, rfl⟩
  have hp0 : p0 = 0 := by simpa using hph
  subst hp0
  have h0p : (0 : Nat) ∈ 0 :: q := List.mem_cons_self 0 q
  have hsp : s ∈ 0 :: q := by
    rcases @List.mem_getLast?_eq_getLast _ (0 :: q) s hs with ⟨h, rfl⟩
    exact List.getLast_mem h
  have hsN : s < N := hplt s hsp
  have hN0 : 0 < N := hplt 0 h0p
  have hmem : ∀ i, i ∈ l ↔ (i < N ∧ i ∉ 0 :: q) := by
    intro i
    constructor
    · intro hi
      exact hlx i hi
    · intro ⟨hi1, hi2⟩
      exact hlc i hi1 hi2
  have hcmem : ∀ i, i ∈ childrenOf N (maskOfPath (0 :: q)) ↔ (i < N ∧ i ∉ 0 :: q) := by
    intro i
    rw [mem_childrenOf, testBit_maskOfPath]
  have hperm : List.Perm (childrenOf N (maskOfPath (0 :: q))) l := by
    rw [List.perm_ext_iff_of_nodup (childrenOf_nodup _ _) hlnd]
    intro a
    rw [hcmem a, hmem a]
  have h0l : (0 : Nat) ∉ l := fun h => ((hmem 0).mp h).2 h0p
  have hsl : s ∉ l := fun h => ((hmem s).mp h).2 hsp
  have hlN : ∀ x ∈ l, x < N := fun x hx => ((hmem x).mp hx).1
  have hlz : ∀ x ∈ l ++ [0], x < N := by
    intro x hx
    rcases List.mem_append.mp hx with hx | hx
    · exact hlN x hx
    · have hx0 : x = 0 := by simpa using hx
      rw [hx0]
      exact hN0
  constructor
  · -- Scheme A
    rw [WspMpi.lower_bound_eq,
      ((hperm.map (WspMpi.minOutEdge N D)).sum_eq : _)]
    have hA := sum_le_walkCost D (WspMpi.minOutEdge N D) 0 l hlnd h0l ?_
    · have hmono := walkCost_cons_le N D hnn' s hsN (l ++ [0]) hlz
      linarith
    · intro x hx y hy hyx
      have hyN : y < N := by
        rcases hy with hy | hy
        · exact hlN y hy
        · exact hy ▸ hN0
      exact WspMpi.minOutEdge_le N D x y hyN (Ne.symm hyx)
  · -- Scheme B
    by_cases hcase : s = 0 ∧ l.length = 1
    · -- degenerate case: partial tour [0] with a single unvisited city; N = 2
      rw [Stable.lower_bound_2edge_eq,
        ((hperm.map (Stable.avg2 N D)).sum_eq : _)]
      have havg_nn : ∀ x ∈ l, 0 ≤ Stable.avg2 N D x := by
        intro x hx
        exact Stable.avg2_nonneg N D x (fun k hk => hnn x (hlN x hx) k hk)
      obtain ⟨hs0, hlen1⟩ := hcase
      have hq : q = [] := by
        cases q with
        | nil => rfl
        | cons b q' =>
          exfalso
          rw [List.getLast?_cons_cons] at hs
          have h0q : s ∈ b :: q' := by
            rcases @List.mem_getLast?_eq_getLast _ (b :: q') s hs with ⟨h, rfl⟩
            exact List.getLast_mem h
          rw [hs0] at h0q
          exact (List.nodup_cons.mp hpnd).1 h0q
      subst hq
      obtain ⟨x, rfl⟩ := List.length_eq_one.mp hlen1
      have hx1 : x = 1 ∧ N = 2 := by
        have hxm := (hmem x).mp (List.mem_cons_self x [])
        have hx0 : x ≠ 0 := by
          intro h
          exact hxm.2 (by simp [h])
        have hxN : x < N := hxm.1
        have hN2 : 2 ≤ N := by omega
        by_cases hN2' : N = 2
        · constructor
          · omega
          · exact hN2'
        · exfalso
          have h1 : (1 : Nat) ∈ [x] := (hmem 1).mpr ⟨by omega, by simp⟩
          have h2 : (2 : Nat) ∈ [x] := (hmem 2).mpr ⟨by omega, by simp⟩
          simp at h1 h2
          omega
      obtain ⟨rfl, rfl⟩ := hx1
      subst hs0
      have hc2 : Stable.cheapest2 2 D 1 = 0 :=
        Stable.cheapest2_two D (hlt 1 (by norm_num) 0 (by norm_num))
      have hc1 : Stable.cheapest1 2 D 1 ≤ D 1 0 :=
        Stable.cheapest1_le 2 D 1 0 (fun k hk => hnn 1 (by norm_num) k hk)
          (by norm_num) (by norm_num)
      have h2avg := Stable.two_mul_ediv_two_le (Stable.cheapest1 2 D 1 + Stable.cheapest2 2 D 1)
      have havg0 : 0 ≤ Stable.avg2 2 D 1 := havg_nn 1 (List.mem_cons_self 1 [])
      have h01 : 0 ≤ D 0 1 := hnn 0 (by norm_num) 1 (by norm_num)
      have havg : Stable.avg2 2 D 1 ≤ D 1 0 := by
        have : 2 * Stable.avg2 2 D 1 ≤ D 1 0 := by
          unfold Stable.avg2 at *
          rw [hc2] at h2avg ⊢
          linarith
        linarith
      simp only [List.map_cons, List.map_nil, List.sum_cons, List.sum_nil,
        List.cons_append, List.nil_append, walkCost_cons_cons, walkCost_single]
      linarith
    · have hspec : s = 0 → l.length ≠ 1 := by
        intro h1 h2
        exact hcase ⟨h1, h2⟩
      have h0bit : (maskOfPath (0 :: q)).testBit 0 := (testBit_maskOfPath _ 0).mpr h0p
      have hsbit : (maskOfPath (0 :: q)).testBit s := (testBit_maskOfPath _ s).mpr hsp
      refine Stable.lower_bound_2edge_le_ext N D hnn' hsym' c _ s l hN0 hsN hlnd
        ?_ h0bit hsbit hspec
      intro i
      rw [hmem i, testBit_maskOfPath]

/-- Witness for C2 at a concrete instance: `N = 3`, the scenario-1 matrix,
partial tour `[0, 1]` and completion `[2]`. -/
theorem C2_lower_bounds_admissible_witness :
    WspMpi.lower_bound 3 (fun i j => [[0,1,2],[1,0,3],[2,3,0]].getD i [] |>.getD j 0) 0
        (maskOfPath [0, 1])
      ≤ 0 + walkCost (fun i j => [[0,1,2],[1,0,3],[2,3,0]].getD i [] |>.getD j 0) (1 :: ([2] ++ [0])) ∧
    Stable.lower_bound_2edge 3 (fun i j => [[0,1,2],[1,0,3],[2,3,0]].getD i [] |>.getD j 0) 0
        (maskOfPath [0, 1])
      ≤ 0 + walkCost (fun i j => [[0,1,2],[1,0,3],[2,3,0]].getD i [] |>.getD j 0) (1 :: ([2] ++ [0])) :=
  C2_lower_bounds_admissible 3 _ (by decide) (by decide) (by decide) 0 le_rfl
    [0, 1] [2] 1 (by constructor <;> simp) ⟨by simp, by decide, by decide⟩ (by decide)

namespace Stable

/-- A single `dist[i][j] = v` store on the matrix state. -/
def mupd (Dm : Nat → Nat → Int) (i j : Nat) (v : Int) : Nat → Nat → Int :=
  fun a b => if a = i ∧ b = j then v else Dm a b

/-- The all-zero matrix state: the static `dist` array after `memset`. -/
def zeroMat : Nat → Nat → Int := fun _ _ => 0

/-- Square branch of `read_distance_file`:
`for i < N: for j < N: dist[i][j] = nums[k++]` with `k = i*N + j`. -/
def fillSquare (N : Nat) (nums : List Int) : Nat → Nat → Int :=
  (List.range N).foldl
    (fun Dm i =>
      (List.range N).foldl (fun Dm' j => mupd Dm' i j (nums.getD (i * N + j) 0)) Dm)
    zeroMat

/-- Triangular branch of `read_distance_file`:
`for i in 1..N-1: for j < i: dist[i][j] = dist[j][i] = nums[k++]` with
`k = i*(i-1)/2 + j`; the diagonal stays at the `memset` value 0. -/
def fillTri (N : Nat) (nums : List Int) : Nat → Nat → Int :=
  (List.range (N - 1)).foldl
    (fun Dm r =>
      (List.range (r + 1)).foldl
        (fun Dm' j =>
          mupd (mupd Dm' (r + 1) j (nums.getD ((r + 1) * r / 2 + j) 0))
            j (r + 1) (nums.getD ((r + 1) * r / 2 + j) 0))
        Dm)
    zeroMat

/-- `read_distance_file` of the stable variant.  `first` is the leading
integer `N` of the file; `rest` the remaining integers; at most
`MAX_N * MAX_N = 361` of them are consumed (`MAX_N = 19`).  Returns `none`
exactly when the program calls `MPI_Abort`. -/
def read_distance_file (first : Int) (rest : List Int) :
    Option (Nat × (Nat → Nat → Int)) :=
  if first > 19 ∨ first ≤ 0 then none
  else
    let n := first.toNat
    let cnt := min rest.length 361
    let nums := rest.take 361
    if cnt = n * n then some (n, fillSquare n nums)
    else if cnt = n * (n - 1) / 2 then some (n, fillTri n nums)
    else none

/-- Closed form of a row fill: updates exactly the cells `(i, b)` with `b`
in the scanned column list. -/
theorem foldl_mupd_row (i : Nat) (g : Nat → Int) (l : List Nat)
    (Dm : Nat → Nat → Int) (a b : Nat) :
    (l.foldl (fun Dm' j => mupd Dm' i j (g j)) Dm) a b
      = if a = i ∧ b ∈ l then g b else Dm a b := by
  induction l generalizing Dm with
  | nil => simp
  | cons j t ih =>
    simp only [List.foldl_cons, ih]
    by_cases hai : a = i
    · subst hai
      by_cases hbt : b ∈ t
      · simp [hbt]
      · by_cases hbj : b = j
        · subst hbj
          simp [hbt, mupd]
        · simp [hbt, hbj, mupd]
    · simp [hai, mupd]

/-- Closed form of `fillSquare`. -/
theorem fillSquare_apply (N : Nat) (nums : List Int) (a b : Nat) :
    fillSquare N nums a b
      = if a < N ∧ b < N then nums.getD (a * N + b) 0 else 0 := by
  unfold fillSquare
  have key : ∀ (l : List Nat) (Dm : Nat → Nat → Int),
      ((l.foldl (fun Dm i =>
        (List.range N).foldl (fun Dm' j => mupd Dm' i j (nums.getD (i * N + j) 0)) Dm)
        Dm) a b)
      = if a ∈ l ∧ b < N then nums.getD (a * N + b) 0 else Dm a b := by
    intro l
    induction l with
    | nil => simp
    | cons i t ih =>
      intro Dm
      simp only [List.foldl_cons, ih]
      rw [foldl_mupd_row]
      by_cases hbN : b < N
      · by_cases hat : a ∈ t
        · simp [hat, hbN]
        · by_cases hai : a = i
          · subst hai
            simp [hat, hbN, List.mem_range]
          · simp [hat, hai, hbN, List.mem_range]
      · simp [hbN, List.mem_range]
  rw [key]
  simp [List.mem_range, zeroMat]

/-- Closed form of one triangular row fill (row `i`, columns in `l`,
`i` itself not a scanned column): writes the two mirror cells. -/
theorem foldl_mupd_tri_row (i : Nat) (g : Nat → Int) (l : List Nat) (hil : i ∉ l)
    (Dm : Nat → Nat → Int) (a b : Nat) :
    (l.foldl (fun Dm' j => mupd (mupd Dm' i j (g j)) j i (g j)) Dm) a b
      = if a = i ∧ b ∈ l then g b
        else if b = i ∧ a ∈ l then g a
        else Dm a b := by
  induction l generalizing Dm with
  | nil => simp
  | cons j t ih =>
    have hij : i ≠ j := fun h => hil (h ▸ List.mem_cons_self j t)
    have hit : i ∉ t := fun h => hil (List.mem_cons_of_mem j h)
    simp only [List.foldl_cons, ih hit, List.mem_cons]
    by_cases hai : a = i <;> by_cases hbi : b = i <;> by_cases hbj : b = j <;>
      by_cases haj : a = j <;> by_cases hat : a ∈ t <;> by_cases hbt : b ∈ t <;>
      simp_all [mupd]

/-- Closed form of the outer `fillTri` fold over an arbitrary list of rows. -/
theorem fillTri_fold_key (nums : List Int) (a b : Nat) :
    ∀ (l : List Nat) (Dm : Nat → Nat → Int),
    (l.foldl (fun Dm r =>
      (List.range (r + 1)).foldl
        (fun Dm' j =>
          mupd (mupd Dm' (r + 1) j (nums.getD ((r + 1) * r / 2 + j) 0))
            j (r + 1) (nums.getD ((r + 1) * r / 2 + j) 0)) Dm) Dm) a b
    = if b < a ∧ (∃ r ∈ l, r + 1 = a) then nums.getD (a * (a - 1) / 2 + b) 0
      else if a < b ∧ (∃ r ∈ l, r + 1 = b) then nums.getD (b * (b - 1) / 2 + a) 0
      else Dm a b := by
  intro l
  induction l with
  | nil => simp
  | cons r t ih =>
    intro Dm
    simp only [List.foldl_cons, ih]
    rw [foldl_mupd_tri_row (r + 1) _ (List.range (r + 1)) (by simp)]
    rcases Nat.lt_trichotomy a b with hab | hab | hab
    · have hnb : ¬ b < a := by omega
      simp only [hnb, false_and, if_false, hab, true_and]
      by_cases hbt : ∃ r' ∈ t, r' + 1 = b
      · obtain ⟨r', hr', hr'b⟩ := hbt
        rw [if_pos ⟨r', hr', hr'b⟩, if_pos ⟨r', List.mem_cons_of_mem r hr', hr'b⟩]
      · rw [if_neg hbt]
        by_cases hbr : b = r + 1
        · have hQ1 : ¬ (a = r + 1 ∧ b ∈ List.range (r + 1)) := by
            intro ⟨h1, h2⟩
            rw [List.mem_range] at h2
            omega
          have hQ2 : b = r + 1 ∧ a ∈ List.range (r + 1) := by
            refine ⟨hbr, ?_⟩
            rw [List.mem_range]
            omega
          rw [if_neg hQ1, if_pos hQ2, if_pos ⟨r, List.mem_cons_self r t, hbr.symm⟩]
          rw [hbr]
          norm_num
        · have hQ1 : ¬ (a = r + 1 ∧ b ∈ List.range (r + 1)) := by
            intro ⟨h1, h2⟩
            rw [List.mem_range] at h2
            omega
          have hQ2 : ¬ (b = r + 1 ∧ a ∈ List.range (r + 1)) := by
            intro ⟨h1, _⟩
            exact hbr h1
          have hT : ¬ ∃ r' ∈ r :: t, r' + 1 = b := by
            intro ⟨r', hr', hr'b⟩
            rcases List.mem_cons.mp hr' with h | h
            · exact hbr (h ▸ hr'b).symm
            · exact hbt ⟨r', h, hr'b⟩
          rw [if_neg hQ1, if_neg hQ2, if_neg hT]
    · subst hab
      have hQ1 : ¬ (a = r + 1 ∧ a ∈ List.range (r + 1)) := by
        intro ⟨h1, h2⟩
        rw [List.mem_range] at h2
        omega
      simp only [lt_irrefl, false_and, if_false]
      rw [if_neg hQ1, if_neg hQ1]
    · have hnb : ¬ a < b := by omega
      simp only [hnb, false_and, if_false, hab, true_and]
      by_cases hat : ∃ r' ∈ t, r' + 1 = a
      · obtain ⟨r', hr', hr'a⟩ := hat
        rw [if_pos ⟨r', hr', hr'a⟩, if_pos ⟨r', List.mem_cons_of_mem r hr', hr'a⟩]
      · rw [if_neg hat]
        by_cases har : a = r + 1
        · have hQ1 : a = r + 1 ∧ b ∈ List.range (r + 1) := by
            refine ⟨har, ?_⟩
            rw [List.mem_range]
            omega
          rw [if_pos hQ1, if_pos ⟨r, List.mem_cons_self r t, har.symm⟩]
          rw [har]
          norm_num
        · have hQ1 : ¬ (a = r + 1 ∧ b ∈ List.range (r + 1)) := by
            intro ⟨h1, _⟩
            exact har h1
          have hQ2 : ¬ (b = r + 1 ∧ a ∈ List.range (r + 1)) := by
            intro ⟨h1, h2⟩
            rw [List.mem_range] at h2
            omega
          have hT : ¬ ∃ r' ∈ r :: t, r' + 1 = a := by
            intro ⟨r', hr', hr'a⟩
            rcases List.mem_cons.mp hr' with h | h
            · exact har (h ▸ hr'a).symm
            · exact hat ⟨r', h, hr'a⟩
          rw [if_neg hQ1, if_neg hQ2, if_neg hT]

/-- Closed form of `fillTri`: mirror reads of the strict lower triangle,
zero elsewhere (diagonal included). -/
theorem fillTri_apply (N : Nat) (nums : List Int) (a b : Nat) :
    fillTri N nums a b
      = if b < a ∧ a < N then nums.getD (a * (a - 1) / 2 + b) 0
        else if a < b ∧ b < N then nums.getD (b * (b - 1) / 2 + a) 0
        else 0 := by
  unfold fillTri
  rw [fillTri_fold_key]
  have hex : ∀ x : Nat, (∃ r ∈ List.range (N - 1), r + 1 = x) ↔ (1 ≤ x ∧ x < N) := by
    intro x
    constructor
    · intro ⟨r, hr, hrx⟩
      rw [List.mem_range] at hr
      omega
    · intro ⟨h1, h2⟩
      exact ⟨x - 1, List.mem_range.mpr (by omega), by omega⟩
  by_cases h1 : b < a ∧ a < N
  · rw [if_pos ⟨h1.1, (hex a).mpr ⟨by omega, h1.2⟩⟩, if_pos h1]
  · rw [if_neg (by rw [hex a]; omega)]
    by_cases h2 : a < b ∧ b < N
    · rw [if_pos ⟨h2.1, (hex b).mpr ⟨by omega, h2.2⟩⟩, if_neg h1, if_pos h2]
    · rw [if_neg (by rw [hex b]; omega), if_neg h1, if_neg h2]
      rfl

end Stable

/-- Row-major listing of a full N x N matrix, as laid out in a distance file. -/
def fullListing (N : Nat) (M : Nat → Nat → Int) : List Int :=
  (List.range N).flatMap (fun i => (List.range N).map (fun j => M i j))

/-- Strict lower-triangle listing (row 1 col 0; row 2 cols 0..1; ...). -/
def triListing (N : Nat) (M : Nat → Nat → Int) : List Int :=
  (List.range (N - 1)).flatMap (fun r => (List.range (r + 1)).map (fun j => M (r + 1) j))

theorem tri_step (n : Nat) : n * (n + 1) / 2 + (n + 1) = (n + 1) * (n + 2) / 2 := by
  obtain ⟨k, hk⟩ := Nat.even_mul_succ_self n
  have hy : (n + 1) * (n + 2) = n * (n + 1) + 2 * (n + 1) := by ring
  omega

theorem fullListing_length (N : Nat) (M : Nat → Nat → Int) :
    (fullListing N M).length = N * N := by
  unfold fullListing
  rw [List.length_flatMap]
  have h : (List.length ∘ fun i => (List.range N).map (fun j => M i j))
      = fun _ => N := funext (fun i => by simp)
  rw [h]
  simp [List.map_const']

theorem triListing_length (N : Nat) (M : Nat → Nat → Int) :
    (triListing N M).length = N * (N - 1) / 2 := by
  unfold triListing
  rw [List.length_flatMap]
  have key : ∀ n : Nat,
      ((List.range n).map
        (List.length ∘ fun r => (List.range (r + 1)).map (fun j => M (r + 1) j))).sum
      = n * (n + 1) / 2 := by
    intro n
    induction n with
    | zero => simp
    | succ m ih =>
      rw [List.range_succ, List.map_append, List.sum_append, ih]
      simpa using tri_step m
  rw [key]
  cases N with
  | zero => simp
  | succ m =>
    simp only [Nat.succ_sub_one]
    rw [Nat.mul_comm]

/-- Reading through `take 361` is transparent below index 361. -/
theorem getD_take_361 (L : List Int) (idx : Nat) (h : idx < 361) :
    (L.take 361).getD idx 0 = L.getD idx 0 := by
  rw [List.getD_eq_getElem?_getD, List.getD_eq_getElem?_getD, List.getElem?_take,
    if_pos h]

/-- Element access in a flat-mapped uniform-row listing. -/
theorem flatMap_rows_getD (M : Nat → Nat → Int) (N : Nat) :
    ∀ (l : List Nat) (k i j : Nat), k < l.length → j < N → l.getD k 0 = i →
    ((l.flatMap (fun i => (List.range N).map (fun j => M i j))).getD (k * N + j) 0
      = M i j) := by
  intro l
  induction l with
  | nil =>
    intro k i j hk
    simp at hk
  | cons r t ih =>
    intro k i j hk hj hl
    cases k with
    | zero =>
      simp only [List.getD_cons_zero] at hl
      subst hl
      simp only [List.flatMap_cons, Nat.zero_mul, Nat.zero_add]
      rw [List.getD_append _ _ _ _ (by simpa using hj)]
      rw [List.getD_eq_getElem?_getD, List.getElem?_map, List.getElem?_range hj]
      rfl
    | succ k' =>
      simp only [List.getD_cons_succ] at hl
      simp only [List.flatMap_cons]
      have hlen : ((List.range N).map (fun j => M r j)).length = N := by simp
      rw [List.getD_append_right _ _ _ _ (by rw [hlen]; nlinarith [Nat.succ_mul k' N])]
      rw [hlen]
      have harith : (k' + 1) * N + j - N = k' * N + j := by
        have : (k' + 1) * N = k' * N + N := by ring
        omega
      rw [harith]
      exact ih k' i j (by simpa using hk) hj hl

theorem fullListing_getD (N : Nat) (M : Nat → Nat → Int) (i j : Nat)
    (hi : i < N) (hj : j < N) :
    (fullListing N M).getD (i * N + j) 0 = M i j := by
  unfold fullListing
  refine flatMap_rows_getD M N (List.range N) i i j (by simpa using hi) hj ?_
  rw [List.getD_eq_getElem?_getD, List.getElem?_range hi]
  rfl

theorem triPrefix_length (M : Nat → Nat → Int) (n : Nat) :
    ((List.range n).flatMap
      (fun r => (List.range (r + 1)).map (fun j => M (r + 1) j))).length
    = n * (n + 1) / 2 := by
  rw [List.length_flatMap]
  induction n with
  | zero => simp
  | succ m ih =>
    rw [List.range_succ, List.map_append, List.sum_append, ih]
    simpa using tri_step m

theorem tri_mid (i : Nat) (hi : 1 ≤ i) : i * (i - 1) / 2 + i = i * (i + 1) / 2 := by
  have h := tri_step (i - 1)
  have h1 : i - 1 + 1 = i := by omega
  have h2 : i - 1 + 2 = i + 1 := by omega
  rw [h1, h2] at h
  rw [Nat.mul_comm i (i - 1)]
  omega

theorem tri_mono (i m : Nat) (h : i ≤ m) : i * (i + 1) / 2 ≤ m * (m + 1) / 2 :=
  Nat.div_le_div_right (Nat.mul_le_mul h (by omega))

theorem triListing_getD_aux (M : Nat → Nat → Int) :
    ∀ (n i j : Nat), j < i → i ≤ n →
    ((List.range n).flatMap
      (fun r => (List.range (r + 1)).map (fun j => M (r + 1) j))).getD
      (i * (i - 1) / 2 + j) 0 = M i j := by
  intro n
  induction n with
  | zero =>
    intro i j hj hi
    omega
  | succ m ih =>
    intro i j hj hi
    rw [List.range_succ, List.flatMap_append]
    by_cases him : i ≤ m
    · rw [List.getD_append _ _ _ _ ?_]
      · exact ih i j hj him
      · rw [triPrefix_length]
        have h1 : i * (i - 1) / 2 + j < i * (i + 1) / 2 := by
          have := tri_mid i (by omega)
          omega
        exact lt_of_lt_of_le h1 (tri_mono i m him)
    · have hieq : i = m + 1 := by omega
      subst hieq
      rw [List.getD_append_right _ _ _ _ ?_]
      · rw [triPrefix_length]
        have harith : (m + 1) * (m + 1 - 1) / 2 + j - m * (m + 1) / 2 = j := by
          have : (m + 1) * (m + 1 - 1) = m * (m + 1) := by
            simp [Nat.mul_comm]
          omega
        rw [harith]
        simp only [List.flatMap_cons, List.flatMap_nil, List.append_nil]
        rw [List.getD_eq_getElem?_getD, List.getElem?_map,
          List.getElem?_range (by omega : j < m + 1)]
        rfl
      · rw [triPrefix_length]
        have : (m + 1) * (m + 1 - 1) = m * (m + 1) := by
          simp [Nat.mul_comm]
        omega

theorem triListing_getD (N : Nat) (M : Nat → Nat → Int) (i j : Nat)
    (hj : j < i) (hi : i < N) :
    (triListing N M).getD (i * (i - 1) / 2 + j) 0 = M i j :=
  triListing_getD_aux M (N - 1) i j hj (by omega)

namespace Stable

theorem read_distance_file_square (N : Nat) (rest : List Int)
    (hN1 : 1 ≤ N) (hN19 : N ≤ 19) (hlen : min rest.length 361 = N * N) :
    read_distance_file (N : Int) rest = some (N, fillSquare N (rest.take 361)) := by
  unfold read_distance_file
  rw [if_neg (by omega)]
  simp only [Int.toNat_natCast]
  rw [if_pos hlen]

theorem read_distance_file_tri (N : Nat) (rest : List Int)
    (hN1 : 1 ≤ N) (hN19 : N ≤ 19) (hne : min rest.length 361 ≠ N * N)
    (hlen : min rest.length 361 = N * (N - 1) / 2) :
    read_distance_file (N : Int) rest = some (N, fillTri N (rest.take 361)) := by
  unfold read_distance_file
  rw [if_neg (by omega)]
  simp only [Int.toNat_natCast]
  rw [if_neg hne, if_pos hlen]

end Stable

/-- Claim C5 (amended): construction by the stable reader succeeds exactly
when `1 ≤ N ≤ 19` (the code's `MAX_N` is 19, not 18) and the number of
integers actually consumed — at most `19*19 = 361` are read — equals `N·N` or
`N·(N−1)/2`. -/
theorem C5_read_success_iff (first : Int) (rest : List Int) :
    (Stable.read_distance_file first rest).isSome = true ↔
      (1 ≤ first ∧ first ≤ 19 ∧
        (min rest.length 361 = first.toNat * first.toNat ∨
         min rest.length 361 = first.toNat * (first.toNat - 1) / 2)) := by
  unfold Stable.read_distance_file
  dsimp only
  split_ifs with h1 h2 h3
  · simp only [Option.isSome_none, Bool.false_eq_true, false_iff]
    intro ⟨ha, hb, _⟩
    omega
  · simp only [Option.isSome_some, true_iff]
    exact ⟨by omega, by omega, Or.inl h2⟩
  · simp only [Option.isSome_some, true_iff]
    exact ⟨by omega, by omega, Or.inr h3⟩
  · simp only [Option.isSome_none, Bool.false_eq_true, false_iff]
    intro ⟨ha, hb, hor⟩
    rcases hor with h | h
    · exact h2 h
    · exact h3 h

/-- Counterexample to claim C5 as stated: the input `N = 19` followed by
`19·18/2 = 171` integers is outside the claimed `[1, 18]` range, yet matrix
construction succeeds (the code's bound is `MAX_N = 19`). -/
theorem C5_counterexample :
    (Stable.read_distance_file 19 (List.replicate 171 1)).isSome = true := by
  have h := Stable.read_distance_file_tri 19 (List.replicate 171 1)
    (by norm_num) (by norm_num) (by norm_num) (by norm_num)
  rw [show ((19 : Nat) : Int) = (19 : Int) by norm_num] at h
  rw [h]
  rfl

/-- Claim C7: parsing the full row-major listing of a symmetric non-negative
matrix with zero diagonal and parsing its strict lower-triangle listing
produce identical stored distance matrices. -/
theorem C7_format_equivalence (N : Nat) (M : Nat → Nat → Int)
    (hN1 : 1 ≤ N) (hN19 : N ≤ 19)
    (hnn : ∀ i, i < N → ∀ j, j < N → 0 ≤ M i j)
    (hsym : ∀ i, i < N → ∀ j, j < N → M i j = M j i)
    (hdiag : ∀ i, i < N → M i i = 0) :
    ∃ Dsq Dtr : Nat → Nat → Int,
      Stable.read_distance_file (N : Int) (fullListing N M) = some (N, Dsq) ∧
      Stable.read_distance_file (N : Int) (triListing N M) = some (N, Dtr) ∧
      ∀ a b, Dsq a b = Dtr a b := by
  have hNN361 : N * N ≤ 361 := Nat.mul_le_mul hN19 hN19
  have htriNN : N * (N - 1) / 2 < N * N := by
    have h1 : N * (N - 1) / 2 ≤ N * (N - 1) := Nat.div_le_self _ _
    have hid : N * (N - 1) + N = N * N := by
      have h3 : N - 1 + 1 = N := by omega
      calc N * (N - 1) + N = N * ((N - 1) + 1) := by ring
        _ = N * N := by rw [h3]
    omega
  have hsqlen : min (fullListing N M).length 361 = N * N := by
    rw [fullListing_length]
    omega
  have htrlen : min (triListing N M).length 361 = N * (N - 1) / 2 := by
    rw [triListing_length]
    omega
  refine ⟨_, _, Stable.read_distance_file_square N _ hN1 hN19 hsqlen,
    Stable.read_distance_file_tri N _ hN1 hN19 (by omega) htrlen, ?_⟩
  intro a b
  rw [Stable.fillSquare_apply, Stable.fillTri_apply]
  by_cases hab : a < N ∧ b < N
  · obtain ⟨haN, hbN⟩ := hab
    have hidx : a * N + b < N * N := by
      have h1 : a * N + b < a * N + N := by omega
      have h2 : a * N + N = (a + 1) * N := by ring
      have h3 : (a + 1) * N ≤ N * N := by
        rw [Nat.mul_comm N N]
        exact Nat.mul_le_mul_right N (by omega)
      omega
    rw [if_pos ⟨haN, hbN⟩, getD_take_361 _ _ (by omega), fullListing_getD N M a b haN hbN]
    rcases Nat.lt_trichotomy a b with h | h | h
    · -- a < b: mirror cell of the triangle
      have htidx : b * (b - 1) / 2 + a < 361 := by
        have h1 : b * (b - 1) / 2 + a < b * (b + 1) / 2 := by
          have := tri_mid b (by omega)
          omega
        have h2 : b * (b + 1) / 2 ≤ N * N := by
          calc b * (b + 1) / 2 ≤ b * (b + 1) := Nat.div_le_self _ _
            _ ≤ N * N := Nat.mul_le_mul (by omega) (by omega)
        omega
      rw [if_neg (by omega), if_pos ⟨h, hbN⟩, getD_take_361 _ _ htidx,
        triListing_getD N M b a h hbN]
      exact hsym a haN b hbN
    · -- diagonal
      subst h
      rw [if_neg (by omega), if_neg (by omega)]
      exact hdiag a haN
    · -- b < a: the triangle cell itself
      have htidx : a * (a - 1) / 2 + b < 361 := by
        have h1 : a * (a - 1) / 2 + b < a * (a + 1) / 2 := by
          have := tri_mid a (by omega)
          omega
        have h2 : a * (a + 1) / 2 ≤ N * N := by
          calc a * (a + 1) / 2 ≤ a * (a + 1) := Nat.div_le_self _ _
            _ ≤ N * N := Nat.mul_le_mul (by omega) (by omega)
        omega
      rw [if_pos ⟨h, haN⟩, getD_take_361 _ _ htidx, triListing_getD N M a b h haN]
  · rw [if_neg hab, if_neg (by omega), if_neg (by omega)]

/-- Witness for C7 at the concrete scenario-1 matrix (`N = 3`). -/
theorem C7_format_equivalence_witness :
    ∃ Dsq Dtr : Nat → Nat → Int,
      Stable.read_distance_file ((3 : Nat) : Int)
          (fullListing 3 (fun i j => [[0,1,2],[1,0,3],[2,3,0]].getD i [] |>.getD j 0))
        = some (3, Dsq) ∧
      Stable.read_distance_file ((3 : Nat) : Int)
          (triListing 3 (fun i j => [[0,1,2],[1,0,3],[2,3,0]].getD i [] |>.getD j 0))
        = some (3, Dtr) ∧
      ∀ a b, Dsq a b = Dtr a b :=
  C7_format_equivalence 3 _ (by decide) (by decide) (by decide) (by decide) (by decide)

/-- Counterexample to claim C8 as stated: a full-matrix input listing a
non-zero diagonal entry keeps it — `read_distance_file` does not force
`D[i][i]` to 0 in the square branch.  Input `N = 2` with integers
`5 1 1 7` yields `D[0][0] = 5`. -/
theorem C8_counterexample :
    (Stable.read_distance_file 2 [5, 1, 1, 7]).map (fun x => x.2 0 0) = some 5 := by
  decide

/-- Claim C8 (amended): after a successful parse the diagonal is zero when
the triangular branch was taken, but in the full-matrix branch `D[i][i]` is
exactly the diagonal value supplied in the input. -/
theorem C8_diagonal (first : Int) (rest : List Int) (n : Nat) (D : Nat → Nat → Int)
    (h : Stable.read_distance_file first rest = some (n, D)) (i : Nat) (hi : i < n) :
    D i i = if min rest.length 361 = n * n then rest.getD (i * n + i) 0 else 0 := by
  unfold Stable.read_distance_file at h
  dsimp only at h
  by_cases h1 : first > 19 ∨ first ≤ 0
  · rw [if_pos h1] at h
    exact absurd h (by simp)
  · rw [if_neg h1] at h
    by_cases h2 : min rest.length 361 = first.toNat * first.toNat
    · rw [if_pos h2] at h
      rw [Option.some.injEq, Prod.mk.injEq] at h
      obtain ⟨hn, hD⟩ := h
      subst hn
      rw [← hD, Stable.fillSquare_apply, if_pos ⟨hi, hi⟩, if_pos h2]
      have hn19 : first.toNat ≤ 19 := by omega
      have hidx : i * first.toNat + i < 361 := by
        have hmul : i * first.toNat ≤ 18 * 19 := Nat.mul_le_mul (by omega) (by omega)
        omega
      exact getD_take_361 rest _ hidx
    · rw [if_neg h2] at h
      by_cases h3 : min rest.length 361 = first.toNat * (first.toNat - 1) / 2
      · rw [if_pos h3] at h
        rw [Option.some.injEq, Prod.mk.injEq] at h
        obtain ⟨hn, hD⟩ := h
        subst hn
        rw [← hD, Stable.fillTri_apply, if_neg (by omega), if_neg (by omega), if_neg h2]
      · rw [if_neg h3] at h
        exact absurd h (by simp)

namespace Stable

/-- One inner pass of the pairwise-swap sort in `stable_hybrid_dfs`: compare
the value at position `i` (argument `x`) against each later position; on
`key x > key y` the two are swapped.  Returns the value finally left at
position `i` together with the later positions' final contents. -/
def sortInner (key : Nat → Int) (x : Nat) : List Nat → Nat × List Nat
  | [] => (x, [])
  | y :: t =>
    if key x > key y then
      let p := sortInner key y t
      (p.1, x :: p.2)
    else
      let p := sortInner key x t
      (p.1, y :: p.2)

/-- The full nested-loop child sort of `stable_hybrid_dfs` (structural fuel:
one unit per outer-loop position; `exchangeSort` supplies exactly enough). -/
def sortChildren (key : Nat → Int) : Nat → List Nat → List Nat
  | _, [] => []
  | 0, l => l
  | fuel + 1, x :: t =>
    let p := sortInner key x t
    p.1 :: sortChildren key fuel p.2

/-- `children[]` after the double sorting loop of `stable_hybrid_dfs`. -/
def exchangeSort (key : Nat → Int) (l : List Nat) : List Nat :=
  sortChildren key l.length l

theorem sortInner_length (key : Nat → Int) (x : Nat) (l : List Nat) :
    (sortInner key x l).2.length = l.length := by
  induction l generalizing x with
  | nil => rfl
  | cons y t ih =>
    unfold sortInner
    split_ifs <;> simp [ih]

theorem sortInner_perm (key : Nat → Int) (x : Nat) (l : List Nat) :
    List.Perm ((sortInner key x l).1 :: (sortInner key x l).2) (x :: l) := by
  induction l generalizing x with
  | nil => exact List.Perm.refl _
  | cons y t ih =>
    simp only [sortInner]
    split_ifs with h
    · dsimp only
      have h1 : List.Perm
          ((sortInner key y t).1 :: x :: (sortInner key y t).2)
          (x :: (sortInner key y t).1 :: (sortInner key y t).2) :=
        List.Perm.swap x (sortInner key y t).1 (sortInner key y t).2
      exact h1.trans ((ih y).cons x)
    · dsimp only
      have h1 : List.Perm
          ((sortInner key x t).1 :: y :: (sortInner key x t).2)
          (y :: (sortInner key x t).1 :: (sortInner key x t).2) :=
        List.Perm.swap y (sortInner key x t).1 (sortInner key x t).2
      have h2 := (ih x).cons y
      have h3 : List.Perm (y :: x :: t) (x :: y :: t) := List.Perm.swap x y t
      exact (h1.trans h2).trans h3

theorem sortInner_min (key : Nat → Int) (x : Nat) (l : List Nat) :
    key (sortInner key x l).1 ≤ key x ∧
    ∀ z ∈ (sortInner key x l).2, key (sortInner key x l).1 ≤ key z := by
  induction l generalizing x with
  | nil => exact ⟨le_rfl, by simp [sortInner]⟩
  | cons y t ih =>
    simp only [sortInner]
    split_ifs with h
    · dsimp only
      have hyx : key y < key x := h
      refine ⟨le_trans (ih y).1 (le_of_lt hyx), ?_⟩
      intro z hz
      rcases List.mem_cons.mp hz with hz | hz
      · subst hz
        exact le_trans (ih y).1 (le_of_lt hyx)
      · exact (ih y).2 z hz
    · dsimp only
      have hxy : key x ≤ key y := not_lt.mp h
      refine ⟨(ih x).1, ?_⟩
      intro z hz
      rcases List.mem_cons.mp hz with hz | hz
      · subst hz
        exact le_trans (ih x).1 hxy
      · exact (ih x).2 z hz

theorem sortChildren_perm (key : Nat → Int) :
    ∀ (fuel : Nat) (l : List Nat), l.length = fuel →
    List.Perm (sortChildren key fuel l) l := by
  intro fuel
  induction fuel with
  | zero =>
    intro l hl
    rw [List.length_eq_zero] at hl
    subst hl
    exact List.Perm.refl _
  | succ f ih =>
    intro l hl
    cases l with
    | nil => exact List.Perm.refl _
    | cons x t =>
      simp only [sortChildren]
      have hlen : (sortInner key x t).2.length = f := by
        rw [sortInner_length]
        simpa using hl
      have h1 := (ih _ hlen).cons (sortInner key x t).1
      exact h1.trans (sortInner_perm key x t)

theorem sortChildren_sorted (key : Nat → Int) :
    ∀ (fuel : Nat) (l : List Nat), l.length = fuel →
    (sortChildren key fuel l).Pairwise (fun a b => key a ≤ key b) := by
  intro fuel
  induction fuel with
  | zero =>
    intro l hl
    rw [List.length_eq_zero] at hl
    subst hl
    exact List.Pairwise.nil
  | succ f ih =>
    intro l hl
    cases l with
    | nil => exact List.Pairwise.nil
    | cons x t =>
      simp only [sortChildren]
      have hlen : (sortInner key x t).2.length = f := by
        rw [sortInner_length]
        simpa using hl
      rw [List.pairwise_cons]
      refine ⟨?_, ih _ hlen⟩
      intro z hz
      have hz' : z ∈ (sortInner key x t).2 :=
        (sortChildren_perm key f _ hlen).mem_iff.mp hz
      exact (sortInner_min key x t).2 z hz'

theorem exchangeSort_perm (key : Nat → Int) (l : List Nat) :
    List.Perm (exchangeSort key l) l :=
  sortChildren_perm key l.length l rfl

theorem exchangeSort_sorted (key : Nat → Int) (l : List Nat) :
    (exchangeSort key l).Pairwise (fun a b => key a ≤ key b) :=
  sortChildren_sorted key l.length l rfl

end Stable

namespace Stable

/-- `MAX_STACK_SIZE = 1 << 16`. -/
def MAX_STACK_SIZE : Nat := 65536

/-- A DFS stack `Node` of `stable_hybrid_dfs`.  `path` holds the meaningful
prefix (the C array stores it in its first `depth` slots). -/
structure SNode where
  city : Nat
  depth : Nat
  cost : Int
  visitedMask : Nat
  path : List Nat
  parent_lb : Int
deriving Repr, DecidableEq

/-- Number of unvisited cities of a node — the branching budget. -/
def unvis (N : Nat) (n : SNode) : Nat := (childrenOf N n.visitedMask).length

/-- Termination/fuel measure of a DFS stack: each node may generate a
subtree of at most `(N+1)^unvis` pops. -/
def stackMeasure (N : Nat) (stk : List SNode) : Nat :=
  (stk.map (fun n => (N + 1) ^ unvis N n)).sum

/-- The child node pushed by `stable_hybrid_dfs` (copy of the parent with
city, cost, mask, path slot, depth and incremental bound updated). -/
def childNode (n : SNode) (next : Nat) (new_cost new_lb : Int) : SNode :=
  { city := next, depth := n.depth + 1, cost := new_cost,
    visitedMask := n.visitedMask ||| 2 ^ next,
    path := n.path ++ [next], parent_lb := new_lb }

/-- The child-expansion loop of `stable_hybrid_dfs`: children are collected
ascending, sorted by edge cost, then scanned from the end (`c` descending;
the stack is LIFO) with the four `continue` guards — cost, incremental bound,
last-level closing cost, and stack-capacity — before each push. -/
def pushChildren (N : Nat) (D : Nat → Nat → Int) (best : Int) (n : SNode)
    (stk : List SNode) : List SNode :=
  ((exchangeSort (fun j => D n.city j) (childrenOf N n.visitedMask)).reverse).foldl
    (fun s next =>
      let new_cost := n.cost + D n.city next
      if best ≤ new_cost then s
      else
        let new_lb := incremental_lower_bound N D n.parent_lb n.city next
        if best ≤ new_lb then s
        else if n.depth = N - 1 ∧ best ≤ new_cost + D next 0 then s
        else if MAX_STACK_SIZE - 1 ≤ s.length then s
        else childNode n next new_cost new_lb :: s)
    stk

/-- The main loop of `stable_hybrid_dfs` (single-thread build): pop, prune
on `cost`/`parent_lb`, close complete tours into the best cell, else expand.
`fuel` is structural; `stackMeasure` of the initial stack always suffices. -/
def dfsRun (N : Nat) (D : Nat → Nat → Int) :
    Nat → List SNode → Int → List Nat → Int × List Nat
  | _, [], best, bpath => (best, bpath)
  | 0, _ :: _, best, bpath => (best, bpath)
  | fuel + 1, n :: rest, best, bpath =>
    if best ≤ n.cost ∨ best ≤ n.parent_lb then
      dfsRun N D fuel rest best bpath
    else if n.depth = N then
      let tour_cost := n.cost + D n.city 0
      if tour_cost < best then dfsRun N D fuel rest tour_cost (n.path ++ [0])
      else dfsRun N D fuel rest best bpath
    else
      dfsRun N D fuel (pushChildren N D best n rest) best bpath

/-- The seed `Task` for first-hop city `city` as built by
`stable_distributed_search`, with the `parent_lb` that
`stable_hybrid_dfs` attaches on conversion to a stack node. -/
def seedNode (N : Nat) (D : Nat → Nat → Int) (city : Nat) : SNode :=
  { city := city, depth := 2, cost := D 0 city,
    visitedMask := 1 ||| 2 ^ city,
    path := [0, city],
    parent_lb := lower_bound_2edge N D (D 0 city) (1 ||| 2 ^ city) }

/-- The contiguous owner-computes slice of seed tasks of rank `r`. -/
def seedsFor (N : Nat) (D : Nat → Nat → Int) (W r : Nat) : List SNode :=
  let total := N - 1
  let base := total / W
  let extra := total % W
  let start := r * base + min r extra
  (List.range' start (base + if r < extra then 1 else 0)).map
    (fun i => seedNode N D (i + 1))

/-- `stable_hybrid_dfs` on a worker's seed tasks: the tasks are pushed in
order onto the array stack, so the LIFO list (top first) is their reverse;
`best_cost` starts at `INT_MAX`, `best_path` zero-initialised. -/
def stable_hybrid_dfs (N : Nat) (D : Nat → Nat → Int) (seeds : List SNode) :
    Int × List Nat :=
  dfsRun N D (stackMeasure N seeds.reverse) seeds.reverse INT_MAX
    (List.replicate (N + 1) 0)

/-- One rank's complete search (`stable_distributed_search`). -/
def stable_distributed_search (N : Nat) (D : Nat → Nat → Int) (W r : Nat) :
    Int × List Nat :=
  stable_hybrid_dfs N D (seedsFor N D W r)

/-- `MPI_Allreduce(best_cost, global_best, MPI_MIN)`: the minimum of all
ranks' local best costs. -/
def stableGlobalBest (N : Nat) (D : Nat → Nat → Int) (W : Nat) : Int :=
  (List.range W).foldl
    (fun g r => min g (stable_distributed_search N D W r).1) INT_MAX

/-- The path-collection loop of `main`: starting from the zeroed buffer,
rank 0 takes its own path if its cost matches, then overwrites with each
higher rank's path whenever that rank's cost equals `global_best`. -/
def collectPath (g : Int) (W : Nat) (res : Nat → Int × List Nat)
    (init : List Nat) : List Nat :=
  (List.range W).foldl (fun acc r => if (res r).1 = g then (res r).2 else acc) init

/-- The tour path printed by rank 0. -/
def emittedPath (N : Nat) (D : Nat → Nat → Int) (W : Nat) : List Nat :=
  collectPath (stableGlobalBest N D W) W (stable_distributed_search N D W)
    (List.replicate (N + 1) 0)

/-- The final report of `main`: the optimal cost and path, or `none` for
the `No solution found!` branch (taken when `global_best` is still
`INT_MAX`). -/
def programOutput (N : Nat) (D : Nat → Nat → Int) (W : Nat) :
    Option (Int × List Nat) :=
  if stableGlobalBest N D W < INT_MAX
  then some (stableGlobalBest N D W, emittedPath N D W)
  else none

end Stable

/-- The scenario-1 distance matrix (`3 \ 1 \ 2 3`), used as concrete input. -/
def exD3 : Nat → Nat → Int :=
  fun i j => [[0,1,2],[1,0,3],[2,3,0]].getD i [] |>.getD j 0

namespace Stable

/-- The node built for a surviving child `next` by the push loop. -/
def mkChild (N : Nat) (D : Nat → Nat → Int) (n : SNode) (next : Nat) : SNode :=
  childNode n next (n.cost + D n.city next)
    (incremental_lower_bound N D n.parent_lb n.city next)

/-- Whether child `next` passes the three pruning guards of the push loop. -/
def survives (N : Nat) (D : Nat → Nat → Int) (best : Int) (n : SNode)
    (next : Nat) : Bool :=
  decide (n.cost + D n.city next < best) &&
  decide (incremental_lower_bound N D n.parent_lb n.city next < best) &&
  ! (decide (n.depth = N - 1) && decide (best ≤ n.cost + D n.city next + D next 0))

/-- With stack headroom, the push loop pushes exactly the surviving children,
in reverse traversal order; the resulting stack top is the first surviving
child of the sorted visiting order. -/
theorem pushChildren_eq_of_room (N : Nat) (D : Nat → Nat → Int) (best : Int)
    (n : SNode) (stk : List SNode)
    (hcap : stk.length + N ≤ MAX_STACK_SIZE - 1) :
    pushChildren N D best n stk
      = (((exchangeSort (fun j => D n.city j) (childrenOf N n.visitedMask)).filter
          (survives N D best n)).map (mkChild N D n)) ++ stk := by
  unfold pushChildren
  have hgen : ∀ (l : List Nat) (s : List SNode),
      s.length + l.length ≤ MAX_STACK_SIZE - 1 →
      l.foldl (fun s next =>
        let new_cost := n.cost + D n.city next
        if best ≤ new_cost then s
        else
          let new_lb := incremental_lower_bound N D n.parent_lb n.city next
          if best ≤ new_lb then s
          else if n.depth = N - 1 ∧ best ≤ new_cost + D next 0 then s
          else if MAX_STACK_SIZE - 1 ≤ s.length then s
          else childNode n next new_cost new_lb :: s) s
      = ((l.filter (survives N D best n)).map (mkChild N D n)).reverse ++ s := by
    intro l
    induction l with
    | nil =>
      intro s _
      simp
    | cons x t ih =>
      intro s hs
      simp only [List.foldl_cons, List.length_cons] at hs ⊢
      by_cases h1 : best ≤ n.cost + D n.city x
      · have hsurv : survives N D best n x = false := by
          unfold survives
          simp [show ¬ (n.cost + D n.city x < best) from not_lt.mpr h1]
        rw [if_pos h1, ih s (by omega)]
        simp [List.filter_cons, hsurv]
      · rw [if_neg h1]
        by_cases h2 : best ≤ incremental_lower_bound N D n.parent_lb n.city x
        · have hsurv : survives N D best n x = false := by
            unfold survives
            simp [show ¬ (incremental_lower_bound N D n.parent_lb n.city x < best) from not_lt.mpr h2]
          rw [if_pos h2, ih s (by omega)]
          simp [List.filter_cons, hsurv]
        · rw [if_neg h2]
          by_cases h3 : n.depth = N - 1 ∧ best ≤ n.cost + D n.city x + D x 0
          · have hsurv : survives N D best n x = false := by
              unfold survives
              obtain ⟨h3a, h3b⟩ := h3
              simp [h3a, h3b]
            rw [if_pos h3, ih s (by omega)]
            simp [List.filter_cons, hsurv]
          · have hroom : ¬ (MAX_STACK_SIZE - 1 ≤ s.length) := by omega
            have hsurv : survives N D best n x = true := by
              unfold survives
              push_neg at h1 h2 h3
              simp only [Bool.and_eq_true, decide_eq_true_eq, Bool.not_eq_true']
              refine ⟨⟨h1, h2⟩, ?_⟩
              by_cases hd : n.depth = N - 1
              · simp [hd, not_le.mpr (h3 hd)]
              · simp [hd]
            rw [if_neg h3, if_neg hroom, ih _ (by simp; omega)]
            simp [List.filter_cons, hsurv, mkChild]
  rw [hgen _ stk ?_]
  · rw [List.filter_reverse, List.map_reverse, List.reverse_reverse]
  · rw [List.length_reverse]
    have h1 := (exchangeSort_perm (fun j => D n.city j)
      (childrenOf N n.visitedMask)).length_eq
    have h2 := childrenOf_length_le N n.visitedMask
    omega

end Stable

/-- Counterexample to claim C6 as stated: the pairwise-swap sort of
`stable_hybrid_dfs` is not stable, so ties are not broken by ascending city
index.  With `D[0][1] = D[0][2] = 5` and `D[0][3] = 3` the children of the
root mask `{0}` (collected ascending as `[1, 2, 3]`) are visited in order
`[3, 2, 1]` — the tied cities 1 and 2 appear in descending index order,
violating the claimed `(cost, index)`-lexicographic order `[3, 1, 2]`. -/
theorem C6_counterexample :
    Stable.exchangeSort (fun j => [[0,5,5,3],[5,0,1,1],[5,1,0,1],[3,1,1,0]].getD 0 [] |>.getD j 0)
        (childrenOf 4 1) = [3, 2, 1] ∧
    ¬ (Stable.exchangeSort (fun j => [[0,5,5,3],[5,0,1,1],[5,1,0,1],[3,1,1,0]].getD 0 [] |>.getD j 0)
        (childrenOf 4 1)).Pairwise
      (fun a b =>
        ([[0,5,5,3],[5,0,1,1],[5,1,0,1],[3,1,1,0]].getD 0 [] |>.getD a 0)
          < ([[0,5,5,3],[5,0,1,1],[5,1,0,1],[3,1,1,0]].getD 0 [] |>.getD b 0)
        ∨ (([[0,5,5,3],[5,0,1,1],[5,1,0,1],[3,1,1,0]].getD 0 [] |>.getD a 0)
            = ([[0,5,5,3],[5,0,1,1],[5,1,0,1],[3,1,1,0]].getD 0 [] |>.getD b 0) ∧ a ≤ b)) := by
  constructor
  · rfl
  · decide

/-- Claim C6 (amended): in DFS child expansion the surviving children are
visited in non-decreasing order of `D[n.city][j]` (ties in an unspecified
order — the swap sort is not stable); the visiting order is a permutation of
the unvisited cities; and because the stack is LIFO the push loop traverses
that order in reverse, leaving the stack as the surviving children in
visiting order on top of the old stack, cheapest surviving child on top, so
it is popped first. -/
theorem C6_branch_ordering (N : Nat) (D : Nat → Nat → Int) (best : Int)
    (n : Stable.SNode) (stk : List Stable.SNode)
    (hcap : stk.length + N ≤ Stable.MAX_STACK_SIZE - 1) :
    (Stable.exchangeSort (fun j => D n.city j) (childrenOf N n.visitedMask)).Pairwise
      (fun a b => D n.city a ≤ D n.city b) ∧
    List.Perm (Stable.exchangeSort (fun j => D n.city j) (childrenOf N n.visitedMask))
      (childrenOf N n.visitedMask) ∧
    Stable.pushChildren N D best n stk
      = (((Stable.exchangeSort (fun j => D n.city j) (childrenOf N n.visitedMask)).filter
          (Stable.survives N D best n)).map (Stable.mkChild N D n)) ++ stk :=
  ⟨Stable.exchangeSort_sorted _ _, Stable.exchangeSort_perm _ _,
    Stable.pushChildren_eq_of_room N D best n stk hcap⟩

/-- Witness for the amended C6 at the concrete matrix of the counterexample
(root node of the search, empty surrounding stack). -/
theorem C6_branch_ordering_witness :
    (Stable.exchangeSort (fun j => exD3 ((Stable.seedNode 3 exD3 1).city) j)
      (childrenOf 3 (Stable.seedNode 3 exD3 1).visitedMask)).Pairwise
      (fun a b => exD3 ((Stable.seedNode 3 exD3 1).city) a
        ≤ exD3 ((Stable.seedNode 3 exD3 1).city) b) ∧
    List.Perm (Stable.exchangeSort (fun j => exD3 ((Stable.seedNode 3 exD3 1).city) j)
      (childrenOf 3 (Stable.seedNode 3 exD3 1).visitedMask))
      (childrenOf 3 (Stable.seedNode 3 exD3 1).visitedMask) ∧
    Stable.pushChildren 3 exD3 INT_MAX (Stable.seedNode 3 exD3 1) []
      = (((Stable.exchangeSort (fun j => exD3 ((Stable.seedNode 3 exD3 1).city) j)
          (childrenOf 3 (Stable.seedNode 3 exD3 1).visitedMask)).filter
          (Stable.survives 3 exD3 INT_MAX (Stable.seedNode 3 exD3 1))).map
          (Stable.mkChild 3 exD3 (Stable.seedNode 3 exD3 1))) ++ [] :=
  C6_branch_ordering 3 exD3 INT_MAX (Stable.seedNode 3 exD3 1) [] (by decide)

/-- Claim C10: stack safety of `stable_hybrid_dfs`.  If the stack pointer is
within `[0, MAX_STACK_SIZE)` before an expansion, it stays so afterwards
(pushes happen only below `MAX_STACK_SIZE - 1`); once the stack has reached
`MAX_STACK_SIZE - 1` entries, a child that has passed all pruning guards is
silently skipped — the push loop leaves the stack unchanged, raises no error
— and the search continues with the rest of the stack. -/
theorem C10_stack_safety (N : Nat) (D : Nat → Nat → Int) (best : Int)
    (n : Stable.SNode) (stk : List Stable.SNode)
    (hcap : stk.length ≤ Stable.MAX_STACK_SIZE - 1) :
    (Stable.pushChildren N D best n stk).length ≤ Stable.MAX_STACK_SIZE - 1 ∧
    (Stable.MAX_STACK_SIZE - 1 ≤ stk.length →
      Stable.pushChildren N D best n stk = stk) ∧
    (∀ fuel bpath, Stable.MAX_STACK_SIZE - 1 ≤ stk.length →
      ¬ (best ≤ n.cost ∨ best ≤ n.parent_lb) → ¬ n.depth = N →
      Stable.dfsRun N D (fuel + 1) (n :: stk) best bpath
        = Stable.dfsRun N D fuel stk best bpath) := by
  have hlen : ∀ (l : List Nat) (s : List Stable.SNode),
      s.length ≤ Stable.MAX_STACK_SIZE - 1 →
      (l.foldl (fun s next =>
        let new_cost := n.cost + D n.city next
        if best ≤ new_cost then s
        else
          let new_lb := Stable.incremental_lower_bound N D n.parent_lb n.city next
          if best ≤ new_lb then s
          else if n.depth = N - 1 ∧ best ≤ new_cost + D next 0 then s
          else if Stable.MAX_STACK_SIZE - 1 ≤ s.length then s
          else Stable.childNode n next new_cost new_lb :: s) s).length
      ≤ Stable.MAX_STACK_SIZE - 1 := by
    intro l
    induction l with
    | nil =>
      intro s hs
      exact hs
    | cons x t ih =>
      intro s hs
      simp only [List.foldl_cons]
      split_ifs with h1 h2 h3 h4
      · exact ih s hs
      · exact ih s hs
      · exact ih s hs
      · exact ih s hs
      · refine ih _ ?_
        simp only [List.length_cons]
        omega
  have hfull : ∀ (l : List Nat) (s : List Stable.SNode),
      Stable.MAX_STACK_SIZE - 1 ≤ s.length →
      (l.foldl (fun s next =>
        let new_cost := n.cost + D n.city next
        if best ≤ new_cost then s
        else
          let new_lb := Stable.incremental_lower_bound N D n.parent_lb n.city next
          if best ≤ new_lb then s
          else if n.depth = N - 1 ∧ best ≤ new_cost + D next 0 then s
          else if Stable.MAX_STACK_SIZE - 1 ≤ s.length then s
          else Stable.childNode n next new_cost new_lb :: s) s)
      = s := by
    intro l
    induction l with
    | nil =>
      intro s _
      rfl
    | cons x t ih =>
      intro s hs
      simp only [List.foldl_cons]
      split_ifs with h1 h2 h3 h4 <;> first
        | exact ih s hs
        | exact absurd hs h4
  refine ⟨hlen _ stk hcap, fun h => hfull _ stk h, ?_⟩
  intro fuel bpath hfl hnp hnd
  have hpc : Stable.pushChildren N D best n stk = stk := hfull _ stk hfl
  show Stable.dfsRun N D (fuel + 1) (n :: stk) best bpath
    = Stable.dfsRun N D fuel stk best bpath
  rw [Stable.dfsRun]
  rw [if_neg hnp, if_neg hnd, hpc]

/-- Witness for C10 at a concrete full stack (length exactly
`MAX_STACK_SIZE - 1`) around the scenario-1 seed node. -/
theorem C10_stack_safety_witness :
    (Stable.pushChildren 3 exD3 INT_MAX (Stable.seedNode 3 exD3 1)
      (List.replicate 65535 (Stable.seedNode 3 exD3 2))).length
        ≤ Stable.MAX_STACK_SIZE - 1 ∧
    (Stable.MAX_STACK_SIZE - 1 ≤ (List.replicate 65535 (Stable.seedNode 3 exD3 2)).length →
      Stable.pushChildren 3 exD3 INT_MAX (Stable.seedNode 3 exD3 1)
        (List.replicate 65535 (Stable.seedNode 3 exD3 2))
        = List.replicate 65535 (Stable.seedNode 3 exD3 2)) ∧
    (∀ fuel bpath, Stable.MAX_STACK_SIZE - 1
        ≤ (List.replicate 65535 (Stable.seedNode 3 exD3 2)).length →
      ¬ (INT_MAX ≤ (Stable.seedNode 3 exD3 1).cost
          ∨ INT_MAX ≤ (Stable.seedNode 3 exD3 1).parent_lb) →
      ¬ (Stable.seedNode 3 exD3 1).depth = 3 →
      Stable.dfsRun 3 exD3 (fuel + 1)
          (Stable.seedNode 3 exD3 1 :: List.replicate 65535 (Stable.seedNode 3 exD3 2))
          INT_MAX bpath
        = Stable.dfsRun 3 exD3 fuel (List.replicate 65535 (Stable.seedNode 3 exD3 2))
          INT_MAX bpath) :=
  C10_stack_safety 3 exD3 INT_MAX (Stable.seedNode 3 exD3 1)
    (List.replicate 65535 (Stable.seedNode 3 exD3 2))
    (by rw [List.length_replicate]; norm_num [Stable.MAX_STACK_SIZE])

theorem foldl_min_all_INT_MAX (f : Nat → Int) (l : List Nat)
    (hf : ∀ r ∈ l, f r = INT_MAX) :
    l.foldl (fun g r => min g (f r)) INT_MAX = INT_MAX := by
  induction l with
  | nil => rfl
  | cons a t ih =>
    simp only [List.foldl_cons, hf a (List.mem_cons_self a t), min_self]
    exact ih (fun r hr => hf r (List.mem_cons_of_mem a hr))

/-- Counterexample to claim C9 as stated: on the input consisting of the
single integer 1, the matrix parses (`N = 1`, zero further integers match the
triangular count), but the search seeds no tasks, `best_cost` stays at
`INT_MAX`, and rank 0 takes the `No solution found!` branch instead of
reporting cost 0 and path `0 0`. -/
theorem C9_counterexample :
    (Stable.read_distance_file 1 []).isSome = true ∧
    Stable.stableGlobalBest 1 (Stable.fillTri 1 []) 1 = INT_MAX ∧
    Stable.programOutput 1 (Stable.fillTri 1 []) 1 = none := by
  refine ⟨by decide, by decide, ?_⟩
  unfold Stable.programOutput
  rw [if_neg (by decide)]

/-- Claim C9 (amended): for `N = 1` and any number of ranks, every rank's
seed slice is empty, the global best stays at the `INT_MAX` sentinel, and the
program prints `No solution found!` (modelled as `none`) rather than the
claimed cost-0 tour `0 0`. -/
theorem C9_n1_no_solution (D : Nat → Nat → Int) (W : Nat) :
    Stable.stableGlobalBest 1 D W = INT_MAX ∧
    Stable.programOutput 1 D W = none := by
  have hseeds : ∀ r, Stable.seedsFor 1 D W r = [] := by
    intro r
    unfold Stable.seedsFor
    simp
  have hsearch : ∀ r, (Stable.stable_distributed_search 1 D W r).1 = INT_MAX := by
    intro r
    unfold Stable.stable_distributed_search Stable.stable_hybrid_dfs
    rw [hseeds r]
    rfl
  have hglobal : Stable.stableGlobalBest 1 D W = INT_MAX := by
    unfold Stable.stableGlobalBest
    exact foldl_min_all_INT_MAX _ _ (fun r _ => hsearch r)
  refine ⟨hglobal, ?_⟩
  unfold Stable.programOutput
  rw [hglobal, if_neg (lt_irrefl INT_MAX)]

/-- The path finally kept by the collection loop of `main` is the one of the
last matching rank. -/
theorem collectPath_last_match (g : Int) (res : Nat → Int × List Nat)
    (init : List Nat) :
    ∀ (W r : Nat), r < W → (res r).1 = g →
    (∀ r', r < r' → r' < W → (res r').1 ≠ g) →
    Stable.collectPath g W res init = (res r).2 := by
  intro W
  induction W with
  | zero =>
    intro r hr
    omega
  | succ w ih =>
    intro r hr hmatch hlast
    unfold Stable.collectPath
    rw [List.range_succ, List.foldl_append]
    simp only [List.foldl_cons, List.foldl_nil]
    by_cases hrw : r = w
    · subst hrw
      rw [if_pos hmatch]
    · have hrlt : r < w := by omega
      have hne : (res w).1 ≠ g := hlast w (by omega) (by omega)
      rw [if_neg hne]
      exact ih r hrlt hmatch (fun r' h1 h2 => hlast r' h1 (by omega))

/-- Claim C4 (amended): when several workers end with a local best equal to
`global_best`, the path emitted by rank 0 is the one of the HIGHEST-ranked
such worker — the collection loop overwrites the buffer on every matching
rank in ascending order. -/
theorem C4_emitted_path_highest_rank (N W : Nat) (D : Nat → Nat → Int)
    (r : Nat) (hr : r < W)
    (hmatch : (Stable.stable_distributed_search N D W r).1
      = Stable.stableGlobalBest N D W)
    (hlast : ∀ r', r < r' → r' < W →
      (Stable.stable_distributed_search N D W r').1 ≠ Stable.stableGlobalBest N D W) :
    Stable.emittedPath N D W = (Stable.stable_distributed_search N D W r).2 :=
  collectPath_last_match _ _ _ W r hr hmatch hlast

/-- Counterexample to claim C4 as stated: with the scenario-1 matrix and two
ranks, both workers finish with local best `6 = global_best` but different
paths; rank 0 emits rank 1's path `0 2 1 0`, not the lowest-ranked worker's
path `0 1 2 0`. -/
theorem C4_counterexample :
    Stable.stableGlobalBest 3 exD3 2 = 6 ∧
    (Stable.stable_distributed_search 3 exD3 2 0).1 = 6 ∧
    (Stable.stable_distributed_search 3 exD3 2 1).1 = 6 ∧
    (Stable.stable_distributed_search 3 exD3 2 0).2 = [0, 1, 2, 0] ∧
    (Stable.stable_distributed_search 3 exD3 2 1).2 = [0, 2, 1, 0] ∧
    Stable.emittedPath 3 exD3 2 = [0, 2, 1, 0] := by
  refine ⟨?_, ?_, ?_, ?_, ?_, ?_⟩ <;> decide

/-- Witness for the amended C4 at the same concrete instance: rank 1 is the
highest matching rank and its path is the one emitted. -/
theorem C4_emitted_path_highest_rank_witness :
    Stable.emittedPath 3 exD3 2 = (Stable.stable_distributed_search 3 exD3 2 1).2 :=
  C4_emitted_path_highest_rank 3 2 exD3 1 (by decide) (by decide)
    (fun r' h1 h2 => absurd (by omega : r' < r') (lt_irrefl r'))

/-- Witness for the amended C8 at the concrete full-matrix input
`2  5 1 1 7`. -/
theorem C8_diagonal_witness :
    Stable.fillSquare 2 (List.take 361 [5, 1, 1, 7]) 0 0
      = if min (List.length [(5 : Int), 1, 1, 7]) 361 = 2 * 2
        then List.getD [(5 : Int), 1, 1, 7] (0 * 2 + 0) 0 else 0 :=
  C8_diagonal ((2 : Nat) : Int) [5, 1, 1, 7] 2
    (Stable.fillSquare 2 (List.take 361 [5, 1, 1, 7]))
    (Stable.read_distance_file_square 2 [5, 1, 1, 7] (by norm_num) (by norm_num)
      (by decide)) 0 (by decide)

theorem walkCost_append_one (D : Nat → Nat → Int) :
    ∀ (p : List Nat) (s x : Nat), p.getLast? = some s →
    walkCost D (p ++ [x]) = walkCost D p + D s x := by
  intro p
  induction p with
  | nil =>
    intro s x hs
    simp at hs
  | cons a t ih =>
    intro s x hs
    cases t with
    | nil =>
      simp only [List.getLast?_singleton, Option.some.injEq] at hs
      subst hs
      simp
    | cons b t' =>
      rw [List.getLast?_cons_cons] at hs
      have h1 := ih s x hs
      simp only [List.cons_append, walkCost_cons_cons] at h1 ⊢
      rw [h1]
      ring

theorem nodup_lt_length_le (p : List Nat) (N : Nat) (hnd : p.Nodup)
    (hlt : ∀ x ∈ p, x < N) : p.length ≤ N := by
  have h1 : p.toFinset.card = p.length := List.toFinset_card_of_nodup hnd
  have h2 : p.toFinset ⊆ Finset.range N := by
    intro x hx
    rw [Finset.mem_range]
    exact hlt x (List.mem_toFinset.mp hx)
  have h3 := Finset.card_le_card h2
  rw [h1, Finset.card_range] at h3
  exact h3

theorem exists_unvisited (p : List Nat) (N : Nat) (hnd : p.Nodup)
    (hlt : ∀ x ∈ p, x < N) (hlen : p.length < N) : ∃ i, i < N ∧ i ∉ p := by
  by_contra hcon
  push_neg at hcon
  have h2 : Finset.range N ⊆ p.toFinset := by
    intro i hi
    rw [Finset.mem_range] at hi
    rw [List.mem_toFinset]
    exact hcon i hi
  have h3 := Finset.card_le_card h2
  rw [Finset.card_range, List.toFinset_card_of_nodup hnd] at h3
  omega

theorem all_visited (p : List Nat) (N : Nat) (hnd : p.Nodup)
    (hlt : ∀ x ∈ p, x < N) (hlen : p.length = N) : ∀ i, i < N → i ∈ p := by
  intro i hi
  by_contra hcon
  have hle := nodup_lt_length_le (i :: p) N (List.nodup_cons.mpr ⟨hcon, hnd⟩)
    (by
      intro x hx
      rcases List.mem_cons.mp hx with hx | hx
      · exact hx ▸ hi
      · exact hlt x hx)
  simp only [List.length_cons, hlen] at hle
  omega

namespace Stable

/-- Well-formedness of a node of the stable DFS: its path is a genuine
partial tour from city 0, its scalar fields are consistent with the path,
and its cached bound is the scratch two-edge bound. -/
def WFNode (N : Nat) (D : Nat → Nat → Int) (n : SNode) : Prop :=
  n.path.head? = some 0 ∧ n.path.Nodup ∧ (∀ x ∈ n.path, x < N) ∧
  2 ≤ n.depth ∧ n.path.length = n.depth ∧ n.path.getLast? = some n.city ∧
  (∀ i, n.visitedMask.testBit i ↔ i ∈ n.path) ∧
  n.cost = walkCost D n.path ∧
  n.parent_lb = lower_bound_2edge N D n.cost n.visitedMask

/-- `l` is a completion order for node `n`: it lists each unvisited city
exactly once. -/
def NodeExt (N : Nat) (n : SNode) (l : List Nat) : Prop :=
  l.Nodup ∧ (∀ x ∈ l, x < N ∧ ¬ n.visitedMask.testBit x) ∧
  (∀ i, i < N → ¬ n.visitedMask.testBit i → i ∈ l)

/-- Total cost of the full tour obtained by extending `n` along `l` and
returning to city 0. -/
def extCost (D : Nat → Nat → Int) (n : SNode) (l : List Nat) : Int :=
  n.cost + walkCost D (n.city :: (l ++ [0]))

theorem WFNode.city_lt {N : Nat} {D : Nat → Nat → Int} {n : SNode}
    (h : WFNode N D n) : n.city < N := by
  obtain ⟨h1, h2, h3, h4, h5, h6, h7, h8, h9⟩ := h
  refine h3 n.city ?_
  rcases @List.mem_getLast?_eq_getLast _ n.path n.city h6 with ⟨hne, heq⟩
  rw [heq]
  exact List.getLast_mem hne

theorem WFNode.bit0 {N : Nat} {D : Nat → Nat → Int} {n : SNode}
    (h : WFNode N D n) : n.visitedMask.testBit 0 := by
  obtain ⟨h1, h2, h3, h4, h5, h6, h7, h8, h9⟩ := h
  rw [h7]
  cases hp : n.path with
  | nil => simp [hp] at h1
  | cons a t =>
    rw [hp] at h1
    simp only [List.head?_cons, Option.some.injEq] at h1
    subst h1
    exact List.mem_cons_self 0 t

theorem WFNode.bit_city {N : Nat} {D : Nat → Nat → Int} {n : SNode}
    (h : WFNode N D n) : n.visitedMask.testBit n.city := by
  obtain ⟨h1, h2, h3, h4, h5, h6, h7, h8, h9⟩ := h
  rw [h7]
  rcases @List.mem_getLast?_eq_getLast _ n.path n.city h6 with ⟨hne, heq⟩
  rw [heq]
  exact List.getLast_mem hne

/-- For well-formed nodes (depth ≥ 2) the current city is never city 0. -/
theorem WFNode.city_ne_zero {N : Nat} {D : Nat → Nat → Int} {n : SNode}
    (h : WFNode N D n) : n.city ≠ 0 := by
  obtain ⟨h1, h2, h3, h4, h5, h6, h7, h8, h9⟩ := h
  cases hp : n.path with
  | nil => simp [hp] at h1
  | cons a t =>
    rw [hp] at h1 h2 h5 h6
    simp only [List.head?_cons, Option.some.injEq] at h1
    subst h1
    cases t with
    | nil => simp at h5; omega
    | cons b t' =>
      rw [List.getLast?_cons_cons] at h6
      have hcity : n.city ∈ b :: t' := by
        rcases @List.mem_getLast?_eq_getLast _ (b :: t') n.city h6 with ⟨hne, heq⟩
        rw [heq]
        exact List.getLast_mem hne
      intro hc0
      rw [hc0] at hcity
      exact (List.nodup_cons.mp h2).1 hcity

theorem WFNode.depth_le {N : Nat} {D : Nat → Nat → Int} {n : SNode}
    (h : WFNode N D n) : n.depth ≤ N := by
  obtain ⟨h1, h2, h3, h4, h5, h6, h7, h8, h9⟩ := h
  rw [← h5]
  exact nodup_lt_length_le n.path N h2 h3

/-- The unvisited count of a well-formed node is `N - depth`. -/
theorem WFNode.unvis_eq {N : Nat} {D : Nat → Nat → Int} {n : SNode}
    (h : WFNode N D n) : unvis N n = N - n.depth := by
  obtain ⟨h1, h2, h3, h4, h5, h6, h7, h8, h9⟩ := h
  unfold unvis childrenOf
  have hfe : (List.range N).filter (fun i => ¬ n.visitedMask.testBit i)
      = (List.range N).filter (fun i => i ∉ n.path) := by
    apply List.filter_congr
    intro i _
    simp [h7]
  rw [hfe]
  have hsplit : ((List.range N).filter (fun i => i ∉ n.path)).length
      + ((List.range N).filter (fun i => i ∈ n.path)).length = N := by
    have h := (List.range N).length_eq_length_filter_add
      (fun i => decide (i ∉ n.path))
    simp only [List.length_range] at h
    have h2 : (List.range N).filter (fun x => ! decide (x ∉ n.path))
        = (List.range N).filter (fun i => i ∈ n.path) := by
      apply List.filter_congr
      intro i _
      simp
    rw [h2] at h
    omega
  have hvis : ((List.range N).filter (fun i => i ∈ n.path)).length = n.depth := by
    rw [← h5]
    have hperm : List.Perm ((List.range N).filter (fun i => i ∈ n.path)) n.path := by
      rw [List.perm_ext_iff_of_nodup ((List.nodup_range N).filter _) h2]
      intro a
      simp only [List.mem_filter, List.mem_range, decide_eq_true_eq]
      constructor
      · intro ⟨_, ha⟩
        exact ha
      · intro ha
        exact ⟨h3 a ha, ha⟩
    exact hperm.length_eq
  omega

end Stable

namespace Stable

/-- Pushing an unvisited city keeps a node well-formed, and the cached
incremental bound is again the scratch bound of the child. -/
theorem WFNode.child {N : Nat} {D : Nat → Nat → Int} {n : SNode}
    (h : WFNode N D n) (next : Nat) (hnext : next ∈ childrenOf N n.visitedMask) :
    WFNode N D (mkChild N D n next) := by
  obtain ⟨hnN, hnb⟩ := mem_childrenOf.mp hnext
  obtain ⟨h1, h2, h3, h4, h5, h6, h7, h8, h9⟩ := h
  have hnp : next ∉ n.path := fun hmem => hnb ((h7 next).mpr hmem)
  have hpne : n.path ≠ [] := by
    intro hnil
    rw [hnil] at h1
    simp at h1
  refine ⟨?_, ?_, ?_, ?_, ?_, ?_, ?_, ?_, ?_⟩
  · show (n.path ++ [next]).head? = some 0
    cases hp : n.path with
    | nil => exact absurd hp hpne
    | cons a t =>
      rw [hp] at h1
      simpa using h1
  · show (n.path ++ [next]).Nodup
    rw [List.nodup_append]
    exact ⟨h2, List.nodup_singleton next, by simpa using hnp⟩
  · intro x hx
    rcases List.mem_append.mp hx with hx | hx
    · exact h3 x hx
    · have : x = next := by simpa using hx
      exact this ▸ hnN
  · show 2 ≤ n.depth + 1
    omega
  · show (n.path ++ [next]).length = n.depth + 1
    simp [h5]
  · show (n.path ++ [next]).getLast? = some next
    simp
  · intro i
    show (n.visitedMask ||| 2 ^ next).testBit i ↔ i ∈ n.path ++ [next]
    rw [testBit_or_two_pow, h7]
    simp
  · show n.cost + D n.city next = walkCost D (n.path ++ [next])
    rw [walkCost_append_one D n.path n.city next h6, h8]
  · show incremental_lower_bound N D n.parent_lb n.city next
      = lower_bound_2edge N D (n.cost + D n.city next) (n.visitedMask ||| 2 ^ next)
    rw [h9]
    exact incr_lb_eq_scratch N D n.cost n.visitedMask n.city next hnN hnb

/-- Decomposing a nonempty completion of `n` into a first hop plus a
completion of the corresponding child. -/
theorem NodeExt.cons_iff {N : Nat} {n : SNode} {x : Nat} {l : List Nat}
    (hx : x < N) (hxb : ¬ n.visitedMask.testBit x) (D : Nat → Nat → Int)
    (nc nl : Int) :
    NodeExt N n (x :: l) ↔
      NodeExt N ({ city := x, depth := n.depth + 1, cost := nc,
                   visitedMask := n.visitedMask ||| 2 ^ x,
                   path := n.path ++ [x], parent_lb := nl } : SNode) l := by
  constructor
  · intro ⟨hnd, hmem, hcov⟩
    refine ⟨(List.nodup_cons.mp hnd).2, ?_, ?_⟩
    · intro y hy
      have hym := hmem y (List.mem_cons_of_mem x hy)
      refine ⟨hym.1, ?_⟩
      show ¬ (n.visitedMask ||| 2 ^ x).testBit y
      rw [testBit_or_two_pow]
      push_neg
      refine ⟨hym.2, ?_⟩
      intro hyx
      exact (List.nodup_cons.mp hnd).1 (hyx ▸ hy)
    · intro i hiN hib
      show i ∈ l
      rw [show ({ city := x, depth := n.depth + 1, cost := nc,
                  visitedMask := n.visitedMask ||| 2 ^ x, path := n.path ++ [x],
                  parent_lb := nl } : SNode).visitedMask = n.visitedMask ||| 2 ^ x from rfl,
        testBit_or_two_pow] at hib
      push_neg at hib
      have := hcov i hiN hib.1
      rcases List.mem_cons.mp this with h | h
      · exact absurd h hib.2
      · exact h
  · intro ⟨hnd, hmem, hcov⟩
    have hxl : x ∉ l := by
      intro hxl
      have := (hmem x hxl).2
      rw [show ({ city := x, depth := n.depth + 1, cost := nc,
                  visitedMask := n.visitedMask ||| 2 ^ x, path := n.path ++ [x],
                  parent_lb := nl } : SNode).visitedMask = n.visitedMask ||| 2 ^ x from rfl,
        testBit_or_two_pow] at this
      push_neg at this
      exact this.2 rfl
    refine ⟨List.nodup_cons.mpr ⟨hxl, hnd⟩, ?_, ?_⟩
    · intro y hy
      rcases List.mem_cons.mp hy with hy | hy
      · exact hy ▸ ⟨hx, hxb⟩
      · have hym := hmem y hy
        refine ⟨hym.1, ?_⟩
        have h2 := hym.2
        rw [show ({ city := x, depth := n.depth + 1, cost := nc,
                    visitedMask := n.visitedMask ||| 2 ^ x, path := n.path ++ [x],
                    parent_lb := nl } : SNode).visitedMask = n.visitedMask ||| 2 ^ x from rfl,
          testBit_or_two_pow] at h2
        push_neg at h2
        exact h2.1
    · intro i hiN hib
      by_cases hix : i = x
      · exact hix ▸ List.mem_cons_self x l
      · refine List.mem_cons_of_mem x (hcov i hiN ?_)
        rw [show ({ city := x, depth := n.depth + 1, cost := nc,
                    visitedMask := n.visitedMask ||| 2 ^ x, path := n.path ++ [x],
                    parent_lb := nl } : SNode).visitedMask = n.visitedMask ||| 2 ^ x from rfl,
          testBit_or_two_pow]
        push_neg
        exact ⟨hib, hix⟩

/-- Cost compatibility of the decomposition. -/
theorem extCost_cons (D : Nat → Nat → Int) (n : SNode) (x : Nat) (l : List Nat)
    (nl : Int) :
    extCost D n (x :: l)
      = extCost D ({ city := x, depth := n.depth + 1, cost := n.cost + D n.city x,
                     visitedMask := n.visitedMask ||| 2 ^ x,
                     path := n.path ++ [x], parent_lb := nl } : SNode) l := by
  unfold extCost
  simp only [List.cons_append, walkCost_cons_cons]
  ring

end Stable

namespace Stable

theorem extCost_ge_cost (N : Nat) (D : Nat → Nat → Int)
    (hnn : ∀ i j, i < N → j < N → 0 ≤ D i j) (n : SNode) (l : List Nat)
    (hwf : WFNode N D n) (hext : NodeExt N n l) : n.cost ≤ extCost D n l := by
  unfold extCost
  have hw : 0 ≤ walkCost D (n.city :: (l ++ [0])) := by
    refine walkCost_nonneg N D hnn _ ?_
    intro x hx
    rcases List.mem_cons.mp hx with hx | hx
    · exact hx ▸ hwf.city_lt
    · rcases List.mem_append.mp hx with hx | hx
      · exact (hext.2.1 x hx).1
      · have hx0 : x = 0 := by simpa using hx
        have h0N : 0 < N := by
          have := hwf.city_lt
          omega
        exact hx0 ▸ h0N
  linarith

theorem parent_lb_le_extCost (N : Nat) (D : Nat → Nat → Int)
    (hnn : ∀ i j, i < N → j < N → 0 ≤ D i j)
    (hsym : ∀ i j, i < N → j < N → D i j = D j i)
    (n : SNode) (l : List Nat)
    (hwf : WFNode N D n) (hext : NodeExt N n l) : n.parent_lb ≤ extCost D n l := by
  have h0N : 0 < N := by
    have := hwf.city_lt
    omega
  obtain ⟨hnd, hmem, hcov⟩ := hext
  have hlb := hwf.2.2.2.2.2.2.2.2
  rw [hlb]
  unfold extCost
  exact lower_bound_2edge_le_ext N D hnn hsym n.cost n.visitedMask n.city l
    h0N hwf.city_lt hnd
    (fun i => ⟨fun hi => hmem i hi, fun ⟨h1, h2⟩ => hcov i h1 h2⟩)
    hwf.bit0 hwf.bit_city (fun h => absurd h hwf.city_ne_zero)

/-- A node at full depth has no unvisited city: its only completion is `[]`. -/
theorem NodeExt_full (N : Nat) (D : Nat → Nat → Int) (n : SNode)
    (hwf : WFNode N D n) (hdepth : n.depth = N) :
    (∀ l, NodeExt N n l → l = []) ∧ NodeExt N n [] := by
  obtain ⟨h1, h2, h3, h4, h5, h6, h7, h8, h9⟩ := hwf
  have hall : ∀ i, i < N → n.visitedMask.testBit i := by
    intro i hi
    rw [h7]
    exact all_visited n.path N h2 h3 (by omega) i hi
  constructor
  · intro l hl
    obtain ⟨hnd, hmem, _⟩ := hl
    cases l with
    | nil => rfl
    | cons a t =>
      have := hmem a (List.mem_cons_self a t)
      exact absurd (hall a this.1) this.2
  · exact ⟨List.nodup_nil, by simp, fun i hi hbit => absurd (hall i hi) hbit⟩

/-- A node strictly below full depth has at least one unvisited city, so all
of its completions are nonempty. -/
theorem NodeExt_nonempty (N : Nat) (D : Nat → Nat → Int) (n : SNode)
    (hwf : WFNode N D n) (hdepth : n.depth ≠ N) (l : List Nat)
    (hext : NodeExt N n l) : l ≠ [] := by
  have hle := hwf.depth_le
  obtain ⟨h1, h2, h3, h4, h5, h6, h7, h8, h9⟩ := hwf
  obtain ⟨i, hiN, hip⟩ := exists_unvisited n.path N h2 h3 (by omega)
  have : i ∈ l := hext.2.2 i hiN (fun hbit => hip ((h7 i).mp hbit))
  intro hnil
  rw [hnil] at this
  simp at this

end Stable

namespace Stable

/-- Structural invariant of the LIFO stack: it decomposes into consecutive
sibling groups with strictly increasing unvisited counts, each group of at
most `u + 1` nodes (the branching factor of their common parent). -/
inductive Shaped (N : Nat) : Nat → List SNode → Prop
  | nil : ∀ b, Shaped N b []
  | grp : ∀ (b u : Nat) (g rest : List SNode),
      g ≠ [] → g.length ≤ u + 1 → (∀ m ∈ g, unvis N m = u) →
      b ≤ u → u ≤ N → Shaped N (u + 1) rest → Shaped N b (g ++ rest)

theorem Shaped.mono {N : Nat} {b b' : Nat} {s : List SNode}
    (hb : b' ≤ b) (h : Shaped N b s) : Shaped N b' s := by
  cases h with
  | nil => exact Shaped.nil b'
  | grp b u g rest hne hlen hu hbu huN hrest =>
    exact Shaped.grp b' u g rest hne hlen hu (le_trans hb hbu) huN hrest

theorem Shaped.length_le {N : Nat} : ∀ {b : Nat} {s : List SNode},
    Shaped N b s → s.length ≤ (N + 1 - b) * (N + 1) := by
  intro b s h
  induction h with
  | nil => simp
  | grp b u g rest hne hlen hu hbu huN hrest ih =>
    rw [List.length_append]
    have h1 : rest.length ≤ (N - u) * (N + 1) := by
      have : N + 1 - (u + 1) = N - u := by omega
      rw [← this]
      exact ih
    have h2 : g.length ≤ N + 1 := by omega
    have h3 : (N + 1) + (N - u) * (N + 1) = (N + 1 - u) * (N + 1) := by
      have h4 : N + 1 - u = (N - u) + 1 := by omega
      rw [h4]
      ring
    have h5 : (N + 1 - u) * (N + 1) ≤ (N + 1 - b) * (N + 1) :=
      Nat.mul_le_mul_right (N + 1) (by omega)
    omega

/-- Popping the head of a shaped stack and pushing any same-`unvis` children
group keeps the stack shaped. -/
theorem Shaped.step {N : Nat} {n : SNode} {rest : List SNode} {pl : List SNode}
    (hs : Shaped N 0 (n :: rest))
    (hpl : ∀ m ∈ pl, unvis N m = unvis N n - 1)
    (hlen : pl.length ≤ unvis N n)
    (hu : pl = [] ∨ 1 ≤ unvis N n) :
    Shaped N 0 (pl ++ rest) := by
  generalize hgr0 : (n :: rest : List SNode) = s at hs
  cases hs with
  | nil => exact (List.cons_ne_nil n rest hgr0).elim
  | grp b u g rest' hne hlen' hug hbu huN hrest =>
    have hgr : (g ++ rest' : List SNode) = n :: rest := hgr0.symm
    cases g with
    | nil => exact absurd rfl hne
    | cons gh gt =>
      have hgh : gh = n := by
        have := congrArg List.head? hgr
        simpa using this
      subst hgh
      have hrest_eq : rest = gt ++ rest' := by
        have := congrArg List.tail hgr
        simpa using this.symm
      subst hrest_eq
      have hun : unvis N gh = u := hug gh (List.mem_cons_self gh gt)
      have htail : Shaped N u (gt ++ rest') := by
        cases gt with
        | nil =>
          simp only [List.nil_append]
          exact hrest.mono (by omega)
        | cons a t =>
          refine Shaped.grp u u (a :: t) rest' (by simp) ?_ ?_ le_rfl huN hrest
          · have := hlen'
            simp only [List.length_cons] at this ⊢
            omega
          · intro m hm
            exact hug m (List.mem_cons_of_mem gh hm)
      rcases hu with hpl_nil | hu1
      · subst hpl_nil
        simp only [List.nil_append]
        exact htail.mono (by omega)
      · cases hple : pl with
        | nil =>
          simp only [List.nil_append]
          exact htail.mono (by omega)
        | cons ph pt =>
          rw [← hple]
          refine Shaped.grp 0 (u - 1) pl (gt ++ rest') ?_ ?_ ?_ ?_ ?_ ?_
          · rw [hple]
            simp
          · rw [hun] at hlen
            omega
          · intro m hm
            rw [hpl m hm, hun]
          · omega
          · omega
          · have : u - 1 + 1 = u := by omega
            rw [this]
            exact htail

end Stable

namespace Stable

theorem stackMeasure_cons (N : Nat) (n : SNode) (rest : List SNode) :
    stackMeasure N (n :: rest) = (N + 1) ^ unvis N n + stackMeasure N rest := by
  simp [stackMeasure]

theorem stackMeasure_append (N : Nat) (a b : List SNode) :
    stackMeasure N (a ++ b) = stackMeasure N a + stackMeasure N b := by
  simp [stackMeasure]

theorem stackMeasure_eq_of_unvis (N : Nat) (pl : List SNode) (v : Nat)
    (h : ∀ m ∈ pl, unvis N m = v) :
    stackMeasure N pl = pl.length * (N + 1) ^ v := by
  induction pl with
  | nil => simp [stackMeasure]
  | cons a t ih =>
    rw [stackMeasure_cons, ih (fun m hm => h m (List.mem_cons_of_mem a hm)),
      h a (List.mem_cons_self a t), List.length_cons]
    ring

/-- Fuel budget: a node with `u` unvisited cities pays for itself and for the
whole subtree of its at most `u` children. -/
theorem pow_budget (N u : Nat) (h1 : 1 ≤ u) (h2 : u ≤ N) :
    u * (N + 1) ^ (u - 1) + 1 ≤ (N + 1) ^ u := by
  have h4 : 1 ≤ (N + 1) ^ (u - 1) := Nat.one_le_pow _ _ (by omega)
  have hA : u * (N + 1) ^ (u - 1) + 1 ≤ (u + 1) * (N + 1) ^ (u - 1) := by
    rw [Nat.succ_mul]
    exact Nat.add_le_add_left h4 _
  have hB : (u + 1) * (N + 1) ^ (u - 1) ≤ (N + 1) * (N + 1) ^ (u - 1) :=
    Nat.mul_le_mul_right _ (by omega)
  have hC : (N + 1) * (N + 1) ^ (u - 1) = (N + 1) ^ u := by
    conv_rhs => rw [show u = (u - 1) + 1 from by omega]
    rw [pow_succ]
    ring
  exact le_trans (le_trans hA hB) (le_of_eq hC)

/-- Visiting one more city shrinks `unvis` by exactly one. -/
theorem unvis_mkChild (N : Nat) (D : Nat → Nat → Int) (n : SNode) (next : Nat)
    (h : next ∈ childrenOf N n.visitedMask) :
    unvis N (mkChild N D n next) = unvis N n - 1 := by
  show (childrenOf N ((mkChild N D n next).visitedMask)).length = _
  have hm : (mkChild N D n next).visitedMask = n.visitedMask ||| 2 ^ next := rfl
  rw [hm, childrenOf_or_two_pow]
  have hnd := childrenOf_nodup N n.visitedMask
  have herase : (childrenOf N n.visitedMask).filter (fun i => i ≠ next)
      = (childrenOf N n.visitedMask).erase next := by
    rw [List.Nodup.erase_eq_filter hnd]
    apply List.filter_congr
    intro i _
    simp [bne, beq_eq_decide]
  rw [herase, List.length_erase_of_mem h]
  rfl

theorem one_testBit (i : Nat) : (1 : Nat).testBit i ↔ i = 0 := by
  cases i with
  | zero => simp
  | succ k =>
    rw [Nat.testBit_add_one]
    simp

/-- The seed node of any first-hop city `c ∈ [1, N)` is well-formed. -/
theorem seedNode_wf (N : Nat) (D : Nat → Nat → Int) (c : Nat)
    (hc1 : 1 ≤ c) (hcN : c < N) : WFNode N D (seedNode N D c) := by
  refine ⟨rfl, ?_, ?_, ?_, ?_, ?_, ?_, ?_, rfl⟩
  · show ([0, c] : List Nat).Nodup
    simp
    omega
  · intro x hx
    have : x = 0 ∨ x = c := by simpa [seedNode] using hx
    rcases this with h | h <;> omega
  · show 2 ≤ 2
    exact le_refl 2
  · rfl
  · show ([0, c] : List Nat).getLast? = some c
    simp
  · intro i
    show (1 ||| 2 ^ c).testBit i ↔ i ∈ ([0, c] : List Nat)
    rw [testBit_or_two_pow, one_testBit]
    simp
  · show D 0 c = walkCost D [0, c]
    simp
  

theorem unvis_seedNode (N : Nat) (D : Nat → Nat → Int) (c : Nat)
    (hc1 : 1 ≤ c) (hcN : c < N) : unvis N (seedNode N D c) = N - 2 :=
  (seedNode_wf N D c hc1 hcN).unvis_eq

end Stable

namespace Stable

/-- The branch-and-bound engine is sound and exact: run on a shaped stack of
well-formed nodes with enough fuel, it never raises the incumbent, its result
is a lower bound of every completion of every stacked node, and the result is
either the incumbent itself or the cost of an actual completion of a stacked
node. -/
theorem dfsRun_spec (N : Nat) (D : Nat → Nat → Int)
    (hnn : ∀ i j, i < N → j < N → 0 ≤ D i j)
    (hsym : ∀ i j, i < N → j < N → D i j = D j i)
    (hN19 : N ≤ 19) :
    ∀ fuel stk best bpath,
      stackMeasure N stk ≤ fuel →
      Shaped N 0 stk →
      (∀ n ∈ stk, WFNode N D n) →
      (dfsRun N D fuel stk best bpath).1 ≤ best ∧
      (∀ n ∈ stk, ∀ l, NodeExt N n l →
        (dfsRun N D fuel stk best bpath).1 ≤ extCost D n l) ∧
      ((dfsRun N D fuel stk best bpath).1 = best ∨
        ∃ n ∈ stk, ∃ l, NodeExt N n l ∧
          (dfsRun N D fuel stk best bpath).1 = extCost D n l) := by
  intro fuel
  induction fuel with
  | zero =>
    intro stk best bpath hm hs hwf
    cases stk with
    | nil => exact ⟨le_refl best, by simp, Or.inl rfl⟩
    | cons n rest =>
      exfalso
      rw [stackMeasure_cons] at hm
      have : 0 < (N + 1) ^ unvis N n := pow_pos (by omega) _
      omega
  | succ fuel ih =>
    intro stk best bpath hm hs hwf
    cases stk with
    | nil => exact ⟨le_refl best, by simp, Or.inl rfl⟩
    | cons n rest =>
      have hwn := hwf n (List.mem_cons_self n rest)
      have hwr : ∀ m ∈ rest, WFNode N D m :=
        fun m hmem => hwf m (List.mem_cons_of_mem n hmem)
      have hsr : Shaped N 0 rest := by
        have h := @Shaped.step N n rest [] hs (by simp) (by simp) (Or.inl rfl)
        simpa using h
      rw [stackMeasure_cons] at hm
      have hpow1 : 1 ≤ (N + 1) ^ unvis N n := Nat.one_le_pow _ _ (by omega)
      have hmr : stackMeasure N rest ≤ fuel := by omega
      by_cases h1 : best ≤ n.cost ∨ best ≤ n.parent_lb
      · -- pruned: the cached bounds dominate every completion of `n`
        have heq : dfsRun N D (fuel + 1) (n :: rest) best bpath
            = dfsRun N D fuel rest best bpath := by
          rw [dfsRun, if_pos h1]
        obtain ⟨ihA, ihB, ihC⟩ := ih rest best bpath hmr hsr hwr
        rw [heq]
        refine ⟨ihA, ?_, ?_⟩
        · intro m hmem l hext
          rcases List.mem_cons.mp hmem with hla | hlb
          · subst hla
            rcases h1 with h1 | h1
            · exact le_trans ihA
                (le_trans h1 (extCost_ge_cost N D hnn m l hwn hext))
            · exact le_trans ihA
                (le_trans h1 (parent_lb_le_extCost N D hnn hsym m l hwn hext))
          · exact ihB m hlb l hext
        · rcases ihC with h | ⟨m, hmem, l, hext, heqv⟩
          · exact Or.inl h
          · exact Or.inr ⟨m, List.mem_cons_of_mem n hmem, l, hext, heqv⟩
      · by_cases h2 : n.depth = N
        · -- a complete tour is closed
          have hext0 := NodeExt_full N D n hwn h2
          have hec : extCost D n [] = n.cost + D n.city 0 := by
            unfold extCost
            simp
          by_cases h3 : n.cost + D n.city 0 < best
          · have heq : dfsRun N D (fuel + 1) (n :: rest) best bpath
                = dfsRun N D fuel rest (n.cost + D n.city 0) (n.path ++ [0]) := by
              rw [dfsRun, if_neg h1, if_pos h2]
              dsimp only
              rw [if_pos h3]
            obtain ⟨ihA, ihB, ihC⟩ :=
              ih rest (n.cost + D n.city 0) (n.path ++ [0]) hmr hsr hwr
            rw [heq]
            refine ⟨le_trans ihA (le_of_lt h3), ?_, ?_⟩
            · intro m hmem l hext
              rcases List.mem_cons.mp hmem with hla | hlb
              · subst hla
                rw [hext0.1 l hext, hec]
                exact ihA
              · exact ihB m hlb l hext
            · rcases ihC with h | ⟨m, hmem, l, hext, heqv⟩
              · exact Or.inr ⟨n, List.mem_cons_self n rest, [], hext0.2,
                  by rw [h, hec]⟩
              · exact Or.inr ⟨m, List.mem_cons_of_mem n hmem, l, hext, heqv⟩
          · have heq : dfsRun N D (fuel + 1) (n :: rest) best bpath
                = dfsRun N D fuel rest best bpath := by
              rw [dfsRun, if_neg h1, if_pos h2]
              dsimp only
              rw [if_neg h3]
            obtain ⟨ihA, ihB, ihC⟩ := ih rest best bpath hmr hsr hwr
            rw [heq]
            refine ⟨ihA, ?_, ?_⟩
            · intro m hmem l hext
              rcases List.mem_cons.mp hmem with hla | hlb
              · subst hla
                rw [hext0.1 l hext, hec]
                exact le_trans ihA (not_lt.mp h3)
              · exact ihB m hlb l hext
            · rcases ihC with h | ⟨m, hmem, l, hext, heqv⟩
              · exact Or.inl h
              · exact Or.inr ⟨m, List.mem_cons_of_mem n hmem, l, hext, heqv⟩
        · -- expansion
          have hdle := hwn.depth_le
          have hd2 : 2 ≤ n.depth := hwn.2.2.2.1
          have huv : unvis N n = N - n.depth := hwn.unvis_eq
          have hu1 : 1 ≤ unvis N n := by omega
          have huN : unvis N n ≤ N := by omega
          have hlen_stk : (n :: rest).length ≤ (N + 1 - 0) * (N + 1) :=
            hs.length_le
          have hcap : rest.length + N ≤ MAX_STACK_SIZE - 1 := by
            simp only [List.length_cons] at hlen_stk
            have hb : (N + 1 - 0) * (N + 1) ≤ 20 * 20 :=
              Nat.mul_le_mul (by omega) (by omega)
            have hmss : MAX_STACK_SIZE = 65536 := rfl
            omega
          have hpush := pushChildren_eq_of_room N D best n rest hcap
          have hsort_perm :
              List.Perm (exchangeSort (fun j => D n.city j)
                (childrenOf N n.visitedMask)) (childrenOf N n.visitedMask) :=
            exchangeSort_perm _ _
          have hpl_mem : ∀ m ∈ (((exchangeSort (fun j => D n.city j)
                (childrenOf N n.visitedMask)).filter
                (survives N D best n)).map (mkChild N D n)),
              ∃ x ∈ childrenOf N n.visitedMask,
                survives N D best n x = true ∧ mkChild N D n x = m := by
            intro m hmem
            obtain ⟨x, hxf, hmx⟩ := List.mem_map.mp hmem
            obtain ⟨hxs, hxsv⟩ := List.mem_filter.mp hxf
            exact ⟨x, hsort_perm.mem_iff.mp hxs, hxsv, hmx⟩
          have hpl_unvis : ∀ m ∈ (((exchangeSort (fun j => D n.city j)
                (childrenOf N n.visitedMask)).filter
                (survives N D best n)).map (mkChild N D n)),
              unvis N m = unvis N n - 1 := by
            intro m hmem
            obtain ⟨x, hxch, _, hmx⟩ := hpl_mem m hmem
            rw [← hmx]
            exact unvis_mkChild N D n x hxch
          have hpl_len : (((exchangeSort (fun j => D n.city j)
                (childrenOf N n.visitedMask)).filter
                (survives N D best n)).map (mkChild N D n)).length
              ≤ unvis N n := by
            rw [List.length_map]
            have ha := List.length_filter_le (survives N D best n)
              (exchangeSort (fun j => D n.city j) (childrenOf N n.visitedMask))
            have hb := hsort_perm.length_eq
            unfold unvis
            omega
          have hs' : Shaped N 0
              ((((exchangeSort (fun j => D n.city j)
                (childrenOf N n.visitedMask)).filter
                (survives N D best n)).map (mkChild N D n)) ++ rest) :=
            Shaped.step hs hpl_unvis hpl_len (Or.inr hu1)
          have hwf' : ∀ m ∈ ((((exchangeSort (fun j => D n.city j)
                (childrenOf N n.visitedMask)).filter
                (survives N D best n)).map (mkChild N D n)) ++ rest),
              WFNode N D m := by
            intro m hmem
            rcases List.mem_append.mp hmem with hin | hin
            · obtain ⟨x, hxch, _, hmx⟩ := hpl_mem m hin
              rw [← hmx]
              exact hwn.child x hxch
            · exact hwr m hin
          have hm' : stackMeasure N
              ((((exchangeSort (fun j => D n.city j)
                (childrenOf N n.visitedMask)).filter
                (survives N D best n)).map (mkChild N D n)) ++ rest) ≤ fuel := by
            rw [stackMeasure_append,
              stackMeasure_eq_of_unvis N _ (unvis N n - 1) hpl_unvis]
            have hb := pow_budget N (unvis N n) hu1 huN
            have hc : (((exchangeSort (fun j => D n.city j)
                  (childrenOf N n.visitedMask)).filter
                  (survives N D best n)).map (mkChild N D n)).length
                  * (N + 1) ^ (unvis N n - 1)
                ≤ unvis N n * (N + 1) ^ (unvis N n - 1) :=
              Nat.mul_le_mul_right _ hpl_len
            omega
          have heq : dfsRun N D (fuel + 1) (n :: rest) best bpath
              = dfsRun N D fuel
                ((((exchangeSort (fun j => D n.city j)
                  (childrenOf N n.visitedMask)).filter
                  (survives N D best n)).map (mkChild N D n)) ++ rest)
                best bpath := by
            rw [dfsRun, if_neg h1, if_neg h2, hpush]
          obtain ⟨ihA, ihB, ihC⟩ := ih _ best bpath hm' hs' hwf'
          rw [heq]
          refine ⟨ihA, ?_, ?_⟩
          · intro m hmem l hext
            rcases List.mem_cons.mp hmem with hla | hlb
            · subst hla
              have hlne := NodeExt_nonempty N D m hwn h2 l hext
              cases l with
              | nil => exact absurd rfl hlne
              | cons x l' =>
                have hxN : x < N := (hext.2.1 x (List.mem_cons_self x l')).1
                have hxb : ¬ m.visitedMask.testBit x :=
                  (hext.2.1 x (List.mem_cons_self x l')).2
                have hxch : x ∈ childrenOf N m.visitedMask :=
                  mem_childrenOf.mpr ⟨hxN, hxb⟩
                have hchild_wf : WFNode N D (mkChild N D m x) := hwn.child x hxch
                have hext' : NodeExt N (mkChild N D m x) l' :=
                  (NodeExt.cons_iff hxN hxb D (m.cost + D m.city x)
                    (incremental_lower_bound N D m.parent_lb m.city x)).mp hext
                have hcost_eq : extCost D m (x :: l')
                    = extCost D (mkChild N D m x) l' :=
                  extCost_cons D m x l'
                    (incremental_lower_bound N D m.parent_lb m.city x)
                rw [hcost_eq]
                by_cases hA : m.cost + D m.city x < best
                · by_cases hB :
                      incremental_lower_bound N D m.parent_lb m.city x < best
                  · by_cases hC : m.depth = N - 1
                        ∧ best ≤ m.cost + D m.city x + D x 0
                    · -- last-level closing prune
                      have hdN : (mkChild N D m x).depth = N := by
                        have : (mkChild N D m x).depth = m.depth + 1 := rfl
                        omega
                      have hl0 := (NodeExt_full N D (mkChild N D m x)
                        hchild_wf hdN).1 l' hext'
                      subst hl0
                      have hval : extCost D (mkChild N D m x) []
                          = m.cost + D m.city x + D x 0 := by
                        unfold extCost
                        have hcv : (mkChild N D m x).cost = m.cost + D m.city x :=
                          rfl
                        have hcc : (mkChild N D m x).city = x := rfl
                        rw [hcv, hcc]
                        simp
                      rw [hval]
                      exact le_trans ihA hC.2
                    · -- the child survives and is pushed
                      have hsv : survives N D best m x = true := by
                        simp only [survives, Bool.and_eq_true, decide_eq_true_eq,
                          Bool.not_eq_true', Bool.and_eq_false_iff,
                          decide_eq_false_iff_not]
                        constructor
                        · exact ⟨hA, hB⟩
                        · by_cases hcd : m.depth = N - 1
                          · right
                            intro hcl
                            exact hC ⟨hcd, hcl⟩
                          · left
                            exact hcd
                      have hin : mkChild N D m x ∈ (((exchangeSort
                            (fun j => D m.city j) (childrenOf N m.visitedMask)).filter
                            (survives N D best m)).map (mkChild N D m)) :=
                        List.mem_map_of_mem _ (List.mem_filter.mpr
                          ⟨hsort_perm.mem_iff.mpr hxch, hsv⟩)
                      exact ihB _ (List.mem_append.mpr (Or.inl hin)) l' hext'
                  · -- incremental-bound prune on the child
                    have hge : incremental_lower_bound N D m.parent_lb m.city x
                        ≤ extCost D (mkChild N D m x) l' := by
                      have h := parent_lb_le_extCost N D hnn hsym
                        (mkChild N D m x) l' hchild_wf hext'
                      exact h
                    exact le_trans ihA (le_trans (not_lt.mp hB) hge)
                · -- cost prune on the child
                  have hge : m.cost + D m.city x ≤ extCost D (mkChild N D m x) l' := by
                    have h := extCost_ge_cost N D hnn (mkChild N D m x) l'
                      hchild_wf hext'
                    exact h
                  exact le_trans ihA (le_trans (not_lt.mp hA) hge)
            · exact ihB m (List.mem_append.mpr (Or.inr hlb)) l hext
          · rcases ihC with h | ⟨m, hmem, l, hext, heqv⟩
            · exact Or.inl h
            · rcases List.mem_append.mp hmem with hin | hin
              · obtain ⟨x, hxch, _, hmx⟩ := hpl_mem m hin
                obtain ⟨hxN, hxb⟩ := mem_childrenOf.mp hxch
                refine Or.inr ⟨n, List.mem_cons_self n rest, x :: l, ?_, ?_⟩
                · refine (NodeExt.cons_iff hxN hxb D (n.cost + D n.city x)
                    (incremental_lower_bound N D n.parent_lb n.city x)).mpr ?_
                  have hext2 : NodeExt N (mkChild N D n x) l := hmx.symm ▸ hext
                  exact hext2
                · rw [heqv, ← hmx]
                  exact (extCost_cons D n x l
                    (incremental_lower_bound N D n.parent_lb n.city x)).symm
              · exact Or.inr ⟨m, List.mem_cons_of_mem n hin, l, hext, heqv⟩

end Stable

namespace Stable

/-- `start` of rank `r`'s owner-computes slice:
`rank * base + MIN(rank, extra)` in `stable_distributed_search`. -/
def sliceStart (total W r : Nat) : Nat := r * (total / W) + min r (total % W)

/-- `count` of rank `r`'s owner-computes slice:
`base + (rank < extra ? 1 : 0)`. -/
def sliceLen (total W r : Nat) : Nat :=
  total / W + if r < total % W then 1 else 0

theorem seedsFor_eq (N : Nat) (D : Nat → Nat → Int) (W r : Nat) :
    seedsFor N D W r
      = (List.range' (sliceStart (N - 1) W r) (sliceLen (N - 1) W r)).map
          (fun i => seedNode N D (i + 1)) := rfl

theorem sliceStart_zero (total W : Nat) : sliceStart total W 0 = 0 := by
  simp [sliceStart]

/-- Consecutive slices are adjacent. -/
theorem sliceStart_succ (total W r : Nat) :
    sliceStart total W (r + 1) = sliceStart total W r + sliceLen total W r := by
  unfold sliceStart sliceLen
  rcases Nat.lt_or_ge r (total % W) with h | h
  · rw [if_pos h, min_eq_left (le_of_lt h), min_eq_left h]
    simp only [Nat.succ_eq_add_one]
    ring
  · rw [if_neg (Nat.not_lt.mpr h), min_eq_right h, min_eq_right (by omega)]
    ring

/-- Every index below a slice boundary is owned by some earlier rank. -/
theorem slice_cover (total W : Nat) :
    ∀ w i, i < sliceStart total W w →
      ∃ r < w, sliceStart total W r ≤ i ∧
        i < sliceStart total W r + sliceLen total W r := by
  intro w
  induction w with
  | zero =>
    intro i hi
    rw [sliceStart_zero] at hi
    omega
  | succ w ih =>
    intro i hi
    rcases Nat.lt_or_ge i (sliceStart total W w) with h | h
    · obtain ⟨r, hr, h1, h2⟩ := ih i h
      exact ⟨r, by omega, h1, h2⟩
    · refine ⟨w, by omega, h, ?_⟩
      rw [← sliceStart_succ]
      exact hi

/-- No slice is longer than the whole seed range. -/
theorem sliceLen_le_total (total W : Nat) (hW : 1 ≤ W) (r : Nat) :
    sliceLen total W r ≤ total := by
  unfold sliceLen
  have hdm := Nat.div_add_mod total W
  have hb : total / W ≤ W * (total / W) := Nat.le_mul_of_pos_left _ hW
  rcases Nat.lt_or_ge r (total % W) with h | h
  · rw [if_pos h]
    generalize hp : W * (total / W) = p at hdm hb
    omega
  · rw [if_neg (Nat.not_lt.mpr h)]
    generalize hp : W * (total / W) = p at hdm hb
    omega

/-- The slices of all `W` ranks exactly cover `[0, total)`. -/
theorem sliceStart_W (total W : Nat) (hW : 1 ≤ W) :
    sliceStart total W W = total := by
  unfold sliceStart
  have hlt : total % W < W := Nat.mod_lt _ hW
  rw [min_eq_right (le_of_lt hlt)]
  exact Nat.div_add_mod total W

theorem sliceStart_mono (total W : Nat) :
    ∀ r w, r ≤ w → sliceStart total W r ≤ sliceStart total W w := by
  intro r w h
  induction w with
  | zero =>
    have : r = 0 := by omega
    subst this
    exact le_refl _
  | succ w ih =>
    rcases Nat.lt_or_ge r (w + 1) with h' | h'
    · have h2 := ih (by omega)
      rw [sliceStart_succ]
      omega
    · have : r = w + 1 := by omega
      subst this
      exact le_refl _

theorem foldl_min_le_init (f : Nat → Int) (l : List Nat) (a : Int) :
    l.foldl (fun g r => min g (f r)) a ≤ a := by
  induction l generalizing a with
  | nil => exact le_refl a
  | cons x t ih =>
    simp only [List.foldl_cons]
    exact le_trans (ih (min a (f x))) (min_le_left _ _)

theorem foldl_min_le_mem (f : Nat → Int) (l : List Nat) (a : Int) :
    ∀ r ∈ l, l.foldl (fun g r => min g (f r)) a ≤ f r := by
  induction l generalizing a with
  | nil =>
    intro r hr
    exact absurd hr (List.not_mem_nil r)
  | cons x t ih =>
    intro r hr
    simp only [List.foldl_cons]
    rcases List.mem_cons.mp hr with h | h
    · subst h
      exact le_trans (foldl_min_le_init f t _) (min_le_right _ _)
    · exact ih (min a (f x)) r h

theorem foldl_min_exists (f : Nat → Int) (l : List Nat) (a : Int) :
    l.foldl (fun g r => min g (f r)) a = a ∨
      ∃ r ∈ l, l.foldl (fun g r => min g (f r)) a = f r := by
  induction l generalizing a with
  | nil => exact Or.inl rfl
  | cons x t ih =>
    simp only [List.foldl_cons]
    rcases ih (min a (f x)) with h | ⟨r, hr, h⟩
    · rcases min_cases a (f x) with ⟨hmin, _⟩ | ⟨hmin, _⟩
      · exact Or.inl (by rw [h, hmin])
      · exact Or.inr ⟨x, List.mem_cons_self x t, by rw [h, hmin]⟩
    · exact Or.inr ⟨r, List.mem_cons_of_mem x hr, h⟩

end Stable

namespace Stable

/-- `p` is the interior of a Hamiltonian cycle through city 0: it lists the
cities `1 .. N-1` exactly once each, in some order.  The cycle itself is
`0 :: p ++ [0]`. -/
def IsTourPerm (N : Nat) (p : List Nat) : Prop :=
  p.Nodup ∧ (∀ x ∈ p, 1 ≤ x ∧ x < N) ∧ (∀ i, 1 ≤ i → i < N → i ∈ p)

/-- Completions of the seed node of first-hop city `c` are exactly the
Hamiltonian-cycle interiors starting with `c`. -/
theorem seed_ext_iff (N : Nat) (D : Nat → Nat → Int) (c : Nat)
    (hc1 : 1 ≤ c) (hcN : c < N) (l : List Nat) :
    NodeExt N (seedNode N D c) l ↔ IsTourPerm N (c :: l) := by
  have hmask : ∀ i, (seedNode N D c).visitedMask.testBit i ↔ (i = 0 ∨ i = c) := by
    intro i
    show (1 ||| 2 ^ c).testBit i ↔ _
    rw [testBit_or_two_pow, one_testBit]
  constructor
  · intro ⟨hnd, hmem, hcov⟩
    have hcl : c ∉ l := by
      intro hcl
      exact (hmem c hcl).2 ((hmask c).mpr (Or.inr rfl))
    refine ⟨List.nodup_cons.mpr ⟨hcl, hnd⟩, ?_, ?_⟩
    · intro x hx
      rcases List.mem_cons.mp hx with hx | hx
      · subst hx
        exact ⟨hc1, hcN⟩
      · obtain ⟨hxN, hxb⟩ := hmem x hx
        rw [hmask x] at hxb
        push_neg at hxb
        exact ⟨by omega, hxN⟩
    · intro i hi1 hiN
      by_cases hic : i = c
      · exact hic ▸ List.mem_cons_self c l
      · refine List.mem_cons_of_mem c (hcov i hiN ?_)
        rw [hmask i]
        push_neg
        exact ⟨by omega, hic⟩
  · intro ⟨hnd, hmem, hcov⟩
    have hcl : c ∉ l := (List.nodup_cons.mp hnd).1
    refine ⟨(List.nodup_cons.mp hnd).2, ?_, ?_⟩
    · intro x hx
      obtain ⟨hx1, hxN⟩ := hmem x (List.mem_cons_of_mem c hx)
      refine ⟨hxN, ?_⟩
      rw [hmask x]
      push_neg
      constructor
      · omega
      · intro hxc
        exact hcl (hxc ▸ hx)
    · intro i hiN hib
      rw [hmask i] at hib
      push_neg at hib
      have := hcov i (by omega) hiN
      rcases List.mem_cons.mp this with h | h
      · exact absurd h hib.2
      · exact h

/-- Extending a seed node along `l` and closing costs exactly the cycle
`0, c, l…, 0`. -/
theorem seed_extCost (N : Nat) (D : Nat → Nat → Int) (c : Nat) (l : List Nat) :
    extCost D (seedNode N D c) l = walkCost D (0 :: ((c :: l) ++ [0])) := by
  show (seedNode N D c).cost + walkCost D ((seedNode N D c).city :: (l ++ [0])) = _
  have h1 : (seedNode N D c).cost = D 0 c := rfl
  have h2 : (seedNode N D c).city = c := rfl
  rw [h1, h2]
  simp

/-- A worker's seed stack is a single shaped sibling group. -/
theorem seeds_shaped (N : Nat) (D : Nat → Nat → Int) (hN2 : 2 ≤ N)
    (seeds : List SNode)
    (hseeds : ∀ s ∈ seeds, ∃ c, 1 ≤ c ∧ c < N ∧ s = seedNode N D c)
    (hlen : seeds.length ≤ N - 1) :
    Shaped N 0 seeds.reverse := by
  cases hrev : seeds.reverse with
  | nil => exact Shaped.nil 0
  | cons a t =>
    have h : Shaped N 0 ((a :: t) ++ []) := by
      refine Shaped.grp 0 (N - 2) (a :: t) [] (by simp) ?_ ?_ (Nat.zero_le _)
        (by omega) (Shaped.nil _)
      · have hl : (a :: t).length = seeds.length := by
          rw [← hrev, List.length_reverse]
        omega
      · intro m hm
        have hm' : m ∈ seeds := by
          rw [← List.mem_reverse, hrev]
          exact hm
        obtain ⟨c, hc1, hcN, hmc⟩ := hseeds m hm'
        rw [hmc]
        exact unvis_seedNode N D c hc1 hcN
    simpa using h

/-- `stable_hybrid_dfs` on a worker's seed list: the local best never
exceeds `INT_MAX`, bounds every completion of every seed, and is either
`INT_MAX` or the cost of an actual completion of one of the seeds. -/
theorem stable_hybrid_dfs_spec (N : Nat) (D : Nat → Nat → Int)
    (hnn : ∀ i j, i < N → j < N → 0 ≤ D i j)
    (hsym : ∀ i j, i < N → j < N → D i j = D j i)
    (hN2 : 2 ≤ N) (hN19 : N ≤ 19) (seeds : List SNode)
    (hseeds : ∀ s ∈ seeds, ∃ c, 1 ≤ c ∧ c < N ∧ s = seedNode N D c)
    (hlen : seeds.length ≤ N - 1) :
    (stable_hybrid_dfs N D seeds).1 ≤ INT_MAX ∧
    (∀ s ∈ seeds, ∀ l, NodeExt N s l →
      (stable_hybrid_dfs N D seeds).1 ≤ extCost D s l) ∧
    ((stable_hybrid_dfs N D seeds).1 = INT_MAX ∨
      ∃ s ∈ seeds, ∃ l, NodeExt N s l ∧
        (stable_hybrid_dfs N D seeds).1 = extCost D s l) := by
  have hwf : ∀ s ∈ seeds.reverse, WFNode N D s := by
    intro s hsm
    obtain ⟨c, hc1, hcN, hmc⟩ := hseeds s (List.mem_reverse.mp hsm)
    rw [hmc]
    exact seedNode_wf N D c hc1 hcN
  obtain ⟨hA, hB, hC⟩ := dfsRun_spec N D hnn hsym hN19
    (stackMeasure N seeds.reverse) seeds.reverse INT_MAX
    (List.replicate (N + 1) 0) (le_refl _)
    (seeds_shaped N D hN2 seeds hseeds hlen) hwf
  refine ⟨hA, ?_, ?_⟩
  · intro s hsm l hext
    exact hB s (List.mem_reverse.mpr hsm) l hext
  · rcases hC with h | ⟨s, hsm, l, hext, heqv⟩
    · exact Or.inl h
    · exact Or.inr ⟨s, List.mem_reverse.mp hsm, l, hext, heqv⟩

end Stable

namespace Stable

/-- Every seed of rank `r`'s slice is the seed node of a first-hop city in
`[1, N)`, and the slice holds at most `N - 1` seeds. -/
theorem seedsFor_char (N : Nat) (D : Nat → Nat → Int) (W r : Nat)
    (hW : 1 ≤ W) (hrW : r < W) :
    (∀ s ∈ seedsFor N D W r, ∃ c, 1 ≤ c ∧ c < N ∧ s = seedNode N D c) ∧
    (seedsFor N D W r).length ≤ N - 1 := by
  constructor
  · intro s hsm
    rw [seedsFor_eq] at hsm
    obtain ⟨i, hi, hmi⟩ := List.mem_map.mp hsm
    rw [List.mem_range'_1] at hi
    have hiub : i < sliceStart (N - 1) W W := by
      have h1 : sliceStart (N - 1) W r + sliceLen (N - 1) W r
          = sliceStart (N - 1) W (r + 1) := (sliceStart_succ _ _ _).symm
      have h2 : sliceStart (N - 1) W (r + 1) ≤ sliceStart (N - 1) W W :=
        sliceStart_mono _ _ _ _ hrW
      omega
    rw [sliceStart_W _ _ hW] at hiub
    exact ⟨i + 1, by omega, by omega, hmi.symm⟩
  · rw [seedsFor_eq, List.length_map, List.length_range']
    exact sliceLen_le_total _ _ hW _

/-- Owner-computes coverage: the seed of every first-hop city is held by
exactly one rank; here we exhibit one. -/
theorem seedNode_owned (N : Nat) (D : Nat → Nat → Int) (W : Nat) (hW : 1 ≤ W)
    (hN2 : 2 ≤ N) (c : Nat) (hc1 : 1 ≤ c) (hcN : c < N) :
    ∃ r < W, seedNode N D c ∈ seedsFor N D W r := by
  have hi : c - 1 < sliceStart (N - 1) W W := by
    rw [sliceStart_W _ _ hW]
    omega
  obtain ⟨r, hrW, h1, h2⟩ := slice_cover (N - 1) W W (c - 1) hi
  refine ⟨r, hrW, ?_⟩
  rw [seedsFor_eq]
  refine List.mem_map.mpr ⟨c - 1, ?_, ?_⟩
  · rw [List.mem_range'_1]
    exact ⟨h1, h2⟩
  · congr 1
    omega

end Stable

/-- Claim C1: for every well-formed instance — `2 ≤ N ≤ 19` cities,
non-negative symmetric distance matrix, at least one worker, and the
canonical tour `0,1,…,N-1,0` costing less than the `INT_MAX` sentinel —
the `global_best` produced by the complete search (owner-computes seeding,
branch-and-bound DFS with pruning on every rank, and the final
`MPI_Allreduce(MIN)` over all `W` workers) equals the minimum, over all
Hamiltonian cycles that start and end at city 0, of the cycle's total edge
cost: it is a lower bound of every such cycle's cost and is attained by one
of them. -/
theorem C1_global_best_optimal (N : Nat) (D : Nat → Nat → Int) (W : Nat)
    (hN2 : 2 ≤ N) (hN19 : N ≤ 19) (hW : 1 ≤ W)
    (hnn : ∀ i, i < N → ∀ j, j < N → 0 ≤ D i j)
    (hsym : ∀ i, i < N → ∀ j, j < N → D i j = D j i)
    (hfin : walkCost D (0 :: (List.range' 1 (N - 1) ++ [0])) < INT_MAX) :
    (∀ p, Stable.IsTourPerm N p →
      Stable.stableGlobalBest N D W ≤ walkCost D (0 :: (p ++ [0]))) ∧
    (∃ p, Stable.IsTourPerm N p ∧
      Stable.stableGlobalBest N D W = walkCost D (0 :: (p ++ [0]))) := by
  have hnn' : ∀ i j, i < N → j < N → 0 ≤ D i j :=
    fun i j hi hj => hnn i hi j hj
  have hsym' : ∀ i j, i < N → j < N → D i j = D j i :=
    fun i j hi hj => hsym i hi j hj
  have hglob_le : ∀ r ∈ List.range W, Stable.stableGlobalBest N D W
      ≤ (Stable.stable_distributed_search N D W r).1 :=
    Stable.foldl_min_le_mem
      (fun r => (Stable.stable_distributed_search N D W r).1)
      (List.range W) INT_MAX
  have hpart1 : ∀ p, Stable.IsTourPerm N p →
      Stable.stableGlobalBest N D W ≤ walkCost D (0 :: (p ++ [0])) := by
    intro p hp
    have h1p : (1 : Nat) ∈ p := hp.2.2 1 (le_refl 1) (by omega)
    cases p with
    | nil => exact absurd h1p (List.not_mem_nil 1)
    | cons c l =>
      obtain ⟨hc1, hcN⟩ := hp.2.1 c (List.mem_cons_self c l)
      obtain ⟨r, hrW, hmem⟩ := Stable.seedNode_owned N D W hW hN2 c hc1 hcN
      have hchar := Stable.seedsFor_char N D W r hW hrW
      have hspec := Stable.stable_hybrid_dfs_spec N D hnn' hsym' hN2 hN19
        (Stable.seedsFor N D W r) hchar.1 hchar.2
      have hext : Stable.NodeExt N (Stable.seedNode N D c) l :=
        (Stable.seed_ext_iff N D c hc1 hcN l).mpr hp
      have hle := hspec.2.1 (Stable.seedNode N D c) hmem l hext
      rw [Stable.seed_extCost] at hle
      exact le_trans (hglob_le r (List.mem_range.mpr hrW)) hle
  refine ⟨hpart1, ?_⟩
  have hcanon : Stable.IsTourPerm N (List.range' 1 (N - 1)) := by
    refine ⟨List.nodup_range' 1 (N - 1), ?_, ?_⟩
    · intro x hx
      rw [List.mem_range'_1] at hx
      exact ⟨hx.1, by omega⟩
    · intro i hi1 hiN
      rw [List.mem_range'_1]
      exact ⟨hi1, by omega⟩
  have hlt : Stable.stableGlobalBest N D W < INT_MAX :=
    lt_of_le_of_lt (hpart1 _ hcanon) hfin
  rcases Stable.foldl_min_exists
      (fun r => (Stable.stable_distributed_search N D W r).1)
      (List.range W) INT_MAX with h | ⟨r, hr, h⟩
  · exfalso
    have h' : Stable.stableGlobalBest N D W = INT_MAX := h
    exact absurd h' (ne_of_lt hlt)
  · have h' : Stable.stableGlobalBest N D W
        = (Stable.stable_distributed_search N D W r).1 := h
    have hrW : r < W := List.mem_range.mp hr
    have hchar := Stable.seedsFor_char N D W r hW hrW
    have hspec := Stable.stable_hybrid_dfs_spec N D hnn' hsym' hN2 hN19
      (Stable.seedsFor N D W r) hchar.1 hchar.2
    rcases hspec.2.2 with hmax | ⟨s, hsm, l, hext, heqv⟩
    · exfalso
      have hgm : Stable.stableGlobalBest N D W = INT_MAX := by
        rw [h']
        exact hmax
      exact absurd hgm (ne_of_lt hlt)
    · obtain ⟨c, hc1, hcN, rfl⟩ := hchar.1 s hsm
      refine ⟨c :: l, (Stable.seed_ext_iff N D c hc1 hcN l).mp hext, ?_⟩
      have hge : Stable.stableGlobalBest N D W
          = Stable.extCost D (Stable.seedNode N D c) l := by
        rw [h']
        exact heqv
      exact hge.trans (Stable.seed_extCost N D c l)

/-- Witness for C1 at the scenario-1 instance: `N = 3`, two workers. -/
theorem C1_global_best_optimal_witness :
    (∀ p, Stable.IsTourPerm 3 p →
      Stable.stableGlobalBest 3 exD3 2 ≤ walkCost exD3 (0 :: (p ++ [0]))) ∧
    (∃ p, Stable.IsTourPerm 3 p ∧
      Stable.stableGlobalBest 3 exD3 2 = walkCost exD3 (0 :: (p ++ [0]))) :=
  C1_global_best_optimal 3 exD3 2 (by decide) (by decide) (by decide)
    (by decide) (by decide) (by decide)
